import Mathlib

/-!
# Verification of the classification-tree library (`classtree`)

A shallow embedding, in Lean 4, of the core data structures and algorithms of
the classification-tree repository:

* the key-ordered search primitive (`ctree/search.hpp`):
  `detail::pair_search_linear`, `detail::pair_search_binary` and the
  size-threshold dispatch `search`;
* the tree nodes: the internal node (`ctree<data_t, metadata_t, key_t, keys_t...>`,
  with its `add`, `add_empty`, `merge`, `size`, `num_keys`) and the leaf node
  (`ctree<value_t, metadata_t>`, with `add`, `add_empty`, `merge`, `size`,
  `num_keys`);
* the full bidirectional iterator (`ctree/iterator.hpp`,
  `detail::iterator_`, both the leaf and the internal specialization);
* the filtered range iterator (`ctree/range_iterator.hpp`,
  `detail::range_iterator_`, both specializations, including
  `initialize_limits`, `next`, `previous`, `count` and the null-pointer
  guards of `begin`/`past_begin`/`end`).

The C++ code is templated over the value, metadata and key types; the test
suite instantiates them at `int`-like types, and the embedding follows that
instantiation: values, metadata and keys are all `Int`.  Metadata merging
(`operator+=`) is integer addition.  A tree with `d` key levels is `CT d`;
`CT 0` is the leaf.  `std::vector` iterators are modelled as `Nat` indices
into the vector, with `end()` as the length (a vector iterator always lies in
`[begin, end]`, so `it == end` is rendered as `length ≤ it`, which agrees on
every representable state and keeps the scan loops well founded).
-/

/-! ## Section 1: the key-ordered search primitive (`ctree/search.hpp`)

`detail::pair_search_linear` and `detail::pair_search_binary` over a vector of
`(key, payload)` pairs, and the public `search` that dispatches on
`v.size() <= 32`.  Only `.first` of each pair is ever read; the pair type is
kept so the definitions line up with the source.  -/

/-- The loop of `detail::pair_search_linear` (`search.hpp`, lines 276-292 of the
linear/binary version): index `i` scans forward; each iteration looks at
`v[i]` and, when `v[i] < value`, peeks at `v[i+1]`; falling off the loop at
`i = size - 1` performs the `v.back()` check.  -/
def linLoop {U : Type} (v : List (Int × U)) (q : Int) (i : Nat) (hi : i < v.length) :
    Nat × Bool :=
  if h : i + 1 < v.length then
    if q < (v.get ⟨i, hi⟩).1 then (i, false)
    else if (v.get ⟨i, hi⟩).1 < q then
      if q < (v.get ⟨i + 1, h⟩).1 then (i + 1, false)
      else linLoop v q (i + 1) h
    else (i, true)
  else
    if (v.get ⟨i, hi⟩).1 < q then (i + 1, false) else (i, true)
termination_by v.length - i
decreasing_by omega

/-- `detail::pair_search_linear` (`search.hpp`, lines 258-293): the sizes 0 and
1 are special-cased, larger sizes run the forward scan from index 0. -/
def pairSearchLinear {U : Type} (v : List (Int × U)) (q : Int) : Nat × Bool :=
  match v with
  | [] => (0, false)
  | [p] =>
    if q < p.1 then (0, false)
    else if p.1 < q then (1, false)
    else (0, true)
  | a :: b :: rest =>
    linLoop (a :: b :: rest) q 0 (by simp)

/-- The `while (i < j)` loop of `detail::pair_search_binary` (`search.hpp`,
lines 313-341), with the trailing three-way comparison at `v[i]` once the
interval has collapsed.  `m = (i + j) / 2`; the `m == 0` and
`m == v.size() - 1` early exits are kept. -/
def binLoop {U : Type} (v : List (Int × U)) (q : Int) (i j : Nat)
    (hi : i < v.length) (hj : j < v.length) : Nat × Bool :=
  if h : i < j then
    if q < (v.get ⟨(i + j) / 2, by omega⟩).1 then
      if hm : (i + j) / 2 = 0 then (0, false)
      else binLoop v q i ((i + j) / 2 - 1) hi (by omega)
    else if (v.get ⟨(i + j) / 2, by omega⟩).1 < q then
      if hm : (i + j) / 2 = v.length - 1 then (v.length, false)
      else binLoop v q ((i + j) / 2 + 1) j (by omega) hj
    else ((i + j) / 2, true)
  else
    if q < (v.get ⟨i, hi⟩).1 then (i, false)
    else if (v.get ⟨i, hi⟩).1 < q then (i + 1, false)
    else (i, true)
termination_by j - i
decreasing_by all_goals omega

/-- `detail::pair_search_binary` (`search.hpp`, lines 295-342). -/
def pairSearchBinary {U : Type} (v : List (Int × U)) (q : Int) : Nat × Bool :=
  match v with
  | [] => (0, false)
  | [p] =>
    if q < p.1 then (0, false)
    else if p.1 < q then (1, false)
    else (0, true)
  | a :: b :: rest =>
    binLoop (a :: b :: rest) q 0 ((a :: b :: rest).length - 1)
      (by simp) (by simp)

/-- The public `search` over `(key, payload)` pairs (`search.hpp`, lines
357-365): linear scan for `v.size() <= 32`, binary search above. -/
def searchPair {U : Type} (v : List (Int × U)) (q : Int) : Nat × Bool :=
  if v.length ≤ 32 then pairSearchLinear v q else pairSearchBinary v q

/-- Keys strictly increasing: the sortedness invariant of every node's
children vector. -/
def KeySorted {U : Type} (v : List (Int × U)) : Prop :=
  List.Pairwise (fun a b => a.1 < b.1) v

instance {U : Type} (v : List (Int × U)) : Decidable (KeySorted v) :=
  inferInstanceAs (Decidable (List.Pairwise _ v))

/-- What it means for `(r, f)` to be a correct search answer for `q` in `v`:
`r` is the insertion point preserving sort order and `f` flags an exact
match.  For any `v` (sorted or not) at most one pair satisfies this. -/
def SearchOK {U : Type} (v : List (Int × U)) (q : Int) (r : Nat) (f : Bool) : Prop :=
  r ≤ v.length ∧
  (∀ t : Fin v.length, (t : Nat) < r → (v.get t).1 < q) ∧
  (f = true → ∃ h : r < v.length, (v.get ⟨r, h⟩).1 = q) ∧
  (f = false → ∀ t : Fin v.length, r ≤ (t : Nat) → q < (v.get t).1)

theorem searchOK_unique {U : Type} {v : List (Int × U)} {q : Int} {r₁ r₂ : Nat}
    {f₁ f₂ : Bool} (h₁ : SearchOK v q r₁ f₁) (h₂ : SearchOK v q r₂ f₂) :
    r₁ = r₂ ∧ f₁ = f₂ := by
  obtain ⟨hr₁, hlt₁, ht₁, hf₁⟩ := h₁
  obtain ⟨hr₂, hlt₂, ht₂, hf₂⟩ := h₂
  have key : ∀ (r : Nat) (f : Bool) (r' : Nat),
      r' ≤ v.length →
      (f = true → ∃ h : r < v.length, (v.get ⟨r, h⟩).1 = q) →
      (f = false → ∀ t : Fin v.length, r ≤ (t : Nat) → q < (v.get t).1) →
      (∀ t : Fin v.length, (t : Nat) < r' → (v.get t).1 < q) →
      r < r' → False := by
    intro r f r' hr' ht hf hlt' hrr
    have hlen : r < v.length := lt_of_lt_of_le hrr hr'
    have hless := hlt' ⟨r, hlen⟩ hrr
    cases f with
    | true =>
      obtain ⟨hw, he⟩ := ht rfl
      simp only at hless
      omega
    | false =>
      have := hf rfl ⟨r, hlen⟩ (le_refl _)
      simp only at this hless
      omega
  have hr : r₁ = r₂ := by
    rcases Nat.lt_trichotomy r₁ r₂ with h | h | h
    · exact absurd (key r₁ f₁ r₂ hr₂ ht₁ hf₁ hlt₂ h) (by simp)
    · exact h
    · exact absurd (key r₂ f₂ r₁ hr₁ ht₂ hf₂ hlt₁ h) (by simp)
  subst hr
  refine ⟨rfl, ?_⟩
  cases hc₁ : f₁ <;> cases hc₂ : f₂ <;> try rfl
  · exfalso
    obtain ⟨hw, he⟩ := ht₂ hc₂
    have := hf₁ hc₁ ⟨r₁, hw⟩ (le_refl _)
    simp only at this
    omega
  · exfalso
    obtain ⟨hw, he⟩ := ht₁ hc₁
    have := hf₂ hc₂ ⟨r₁, hw⟩ (le_refl _)
    simp only at this
    omega

/-- Sorted access: strictly increasing keys, by index. -/
theorem keySorted_get {U : Type} {v : List (Int × U)} (hs : KeySorted v)
    (s t : Fin v.length) (h : (s : Nat) < (t : Nat)) :
    (v.get s).1 < (v.get t).1 := by
  have := List.pairwise_iff_get.mp hs s t h
  exact this

theorem linLoop_ok {U : Type} (v : List (Int × U)) (q : Int) (hs : KeySorted v) :
    ∀ (fuel i : Nat) (hi : i < v.length), v.length - i ≤ fuel →
    (∀ t : Fin v.length, (t : Nat) < i → (v.get t).1 < q) →
    (i + 1 = v.length → ¬ q < (v.get ⟨i, hi⟩).1) →
    SearchOK v q (linLoop v q i hi).1 (linLoop v q i hi).2 := by
  intro fuel
  induction fuel with
  | zero => intro i hi hfuel; omega
  | succ n ih =>
    intro i hi hfuel hprev hlast
    rw [linLoop]
    by_cases h : i + 1 < v.length
    · rw [dif_pos h]
      by_cases h1 : q < (v.get ⟨i, hi⟩).1
      · rw [if_pos h1]
        refine ⟨by omega, hprev, by simp, ?_⟩
        intro _ t ht
        rcases Nat.eq_or_lt_of_le ht with he | hl
        · have : t = ⟨i, hi⟩ := Fin.ext he.symm
          rw [this]; exact h1
        · exact lt_trans h1 (keySorted_get hs ⟨i, hi⟩ t hl)
      · rw [if_neg h1]
        by_cases h2 : (v.get ⟨i, hi⟩).1 < q
        · rw [if_pos h2]
          by_cases h3 : q < (v.get ⟨i + 1, h⟩).1
          · rw [if_pos h3]
            refine ⟨by omega, ?_, by simp, ?_⟩
            · intro t ht
              rcases Nat.lt_or_ge (t : Nat) i with hl | hg
              · exact hprev t hl
              · have : t = ⟨i, hi⟩ := Fin.ext (show (t : Nat) = i by omega)
                rw [this]; exact h2
            · intro _ t ht
              rcases Nat.eq_or_lt_of_le ht with he | hl
              · have : t = ⟨i + 1, h⟩ := Fin.ext he.symm
                rw [this]; exact h3
              · exact lt_trans h3 (keySorted_get hs ⟨i + 1, h⟩ t hl)
          · rw [if_neg h3]
            refine ih (i + 1) h (by omega) ?_ (fun _ => h3)
            intro t ht
            rcases Nat.lt_or_ge (t : Nat) i with hl | hg
            · exact hprev t hl
            · have : t = ⟨i, hi⟩ := Fin.ext (show (t : Nat) = i by omega)
              rw [this]; exact h2
        · rw [if_neg h2]
          refine ⟨by omega, hprev, ?_, by simp⟩
          intro _
          exact ⟨hi, le_antisymm (not_lt.mp h1) (not_lt.mp h2)⟩
    · rw [dif_neg h]
      by_cases h2 : (v.get ⟨i, hi⟩).1 < q
      · rw [if_pos h2]
        refine ⟨by omega, ?_, by simp, ?_⟩
        · intro t ht
          rcases Nat.lt_or_ge (t : Nat) i with hl | hg
          · exact hprev t hl
          · have : t = ⟨i, hi⟩ := Fin.ext (show (t : Nat) = i by omega)
            rw [this]; exact h2
        · intro _ t ht
          exact absurd t.isLt (by omega)
      · rw [if_neg h2]
        refine ⟨by omega, hprev, ?_, by simp⟩
        intro _
        exact ⟨hi, le_antisymm (not_lt.mp (hlast (by omega))) (not_lt.mp h2)⟩

theorem pairSearchLinear_ok {U : Type} (v : List (Int × U)) (q : Int)
    (hs : KeySorted v) :
    SearchOK v q (pairSearchLinear v q).1 (pairSearchLinear v q).2 := by
  match v with
  | [] =>
    refine ⟨le_refl _, ?_, by simp [pairSearchLinear], ?_⟩
    · intro t; exact absurd t.isLt (by simp)
    · intro _ t; exact absurd t.isLt (by simp)
  | [p] =>
    simp only [pairSearchLinear]
    by_cases h1 : q < p.1
    · rw [if_pos h1]
      refine ⟨by simp, ?_, nofun, ?_⟩
      · intro t ht; omega
      · intro _ t ht
        have hv := t.isLt
        simp only [List.length_singleton] at hv
        have : t = ⟨0, by simp⟩ := Fin.ext (show (t : Nat) = 0 by omega)
        rw [this]; exact h1
    · rw [if_neg h1]
      by_cases h2 : p.1 < q
      · rw [if_pos h2]
        refine ⟨by simp, ?_, nofun, ?_⟩
        · intro t ht
          have hv := t.isLt
          simp only [List.length_singleton] at hv
          have : t = ⟨0, by simp⟩ := Fin.ext (show (t : Nat) = 0 by omega)
          rw [this]; exact h2
        · intro _ t ht
          have := t.isLt
          simp only [List.length_singleton] at this
          omega
      · rw [if_neg h2]
        refine ⟨by simp, ?_, ?_, nofun⟩
        · intro t ht; omega
        · intro _
          exact ⟨by simp, le_antisymm (not_lt.mp h1) (not_lt.mp h2)⟩
  | a :: b :: rest =>
    refine linLoop_ok (a :: b :: rest) q hs ((a :: b :: rest).length) 0
      (by simp) (by omega) ?_ ?_
    · intro t ht; omega
    · intro hcon
      exfalso
      simp only [List.length_cons] at hcon
      omega

theorem binLoop_ok {U : Type} (v : List (Int × U)) (q : Int) (hs : KeySorted v) :
    ∀ (fuel i j : Nat) (hi : i < v.length) (hj : j < v.length),
    j - i ≤ fuel →
    (∀ t : Fin v.length, (t : Nat) < i → (v.get t).1 < q) →
    (∀ t : Fin v.length, j < (t : Nat) → q < (v.get t).1) →
    SearchOK v q (binLoop v q i j hi hj).1 (binLoop v q i j hi hj).2 := by
  intro fuel
  induction fuel with
  | zero =>
    intro i j hi hj hfuel hlow hhigh
    rw [binLoop, dif_neg (by omega)]
    by_cases h1 : q < (v.get ⟨i, hi⟩).1
    · rw [if_pos h1]
      refine ⟨by omega, hlow, by simp, ?_⟩
      intro _ t ht
      rcases Nat.eq_or_lt_of_le ht with he | hl
      · have : t = ⟨i, hi⟩ := Fin.ext he.symm
        rw [this]; exact h1
      · exact hhigh t (by omega)
    · rw [if_neg h1]
      by_cases h2 : (v.get ⟨i, hi⟩).1 < q
      · rw [if_pos h2]
        refine ⟨by omega, ?_, by simp, ?_⟩
        · intro t ht
          rcases Nat.lt_or_ge (t : Nat) i with hl | hg
          · exact hlow t hl
          · have : t = ⟨i, hi⟩ := Fin.ext (show (t : Nat) = i by omega)
            rw [this]; exact h2
        · intro _ t ht
          exact hhigh t (by omega)
      · rw [if_neg h2]
        refine ⟨by omega, hlow, ?_, by simp⟩
        intro _
        exact ⟨hi, le_antisymm (not_lt.mp h1) (not_lt.mp h2)⟩
  | succ n ih =>
    intro i j hi hj hfuel hlow hhigh
    rw [binLoop]
    by_cases h : i < j
    · rw [dif_pos h]
      have hm : (i + j) / 2 < v.length := by omega
      by_cases h1 : q < (v.get ⟨(i + j) / 2, hm⟩).1
      · rw [if_pos h1]
        by_cases hm0 : (i + j) / 2 = 0
        · rw [dif_pos hm0]
          refine ⟨by omega, ?_, by simp, ?_⟩
          · intro t ht; omega
          · intro _ t ht
            rcases Nat.eq_zero_or_pos (t : Nat) with he | hp
            · have : t = ⟨(i + j) / 2, hm⟩ := Fin.ext (show (t : Nat) = (i + j) / 2 by omega)
              rw [this]; exact h1
            · exact lt_trans h1 (keySorted_get hs ⟨(i + j) / 2, hm⟩ t
                (show (i + j) / 2 < (t : Nat) by omega))
        · rw [dif_neg hm0]
          refine ih i ((i + j) / 2 - 1) hi (by omega) (by omega) hlow ?_
          intro t ht
          rcases Nat.eq_or_lt_of_le (show (i + j) / 2 ≤ (t : Nat) by omega)
            with he | hl
          · have : t = ⟨(i + j) / 2, hm⟩ := Fin.ext he.symm
            rw [this]; exact h1
          · exact lt_trans h1 (keySorted_get hs ⟨(i + j) / 2, hm⟩ t hl)
      · rw [if_neg h1]
        by_cases h2 : (v.get ⟨(i + j) / 2, hm⟩).1 < q
        · rw [if_pos h2]
          by_cases hmL : (i + j) / 2 = v.length - 1
          · rw [dif_pos hmL]
            refine ⟨le_refl _, ?_, by simp, ?_⟩
            · intro t ht
              rcases Nat.lt_or_ge (t : Nat) ((i + j) / 2) with hl | hg
              · exact lt_trans (keySorted_get hs t ⟨(i + j) / 2, hm⟩ hl) h2
              · have : t = ⟨(i + j) / 2, hm⟩ := Fin.ext (show (t : Nat) = (i + j) / 2 by omega)
                rw [this]; exact h2
            · intro _ t ht
              exact absurd t.isLt (by omega)
          · rw [dif_neg hmL]
            refine ih ((i + j) / 2 + 1) j (by omega) hj (by omega) ?_ hhigh
            intro t ht
            rcases Nat.lt_or_ge (t : Nat) ((i + j) / 2) with hl | hg
            · exact lt_trans (keySorted_get hs t ⟨(i + j) / 2, hm⟩ hl) h2
            · have : t = ⟨(i + j) / 2, hm⟩ := Fin.ext (show (t : Nat) = (i + j) / 2 by omega)
              rw [this]; exact h2
        · rw [if_neg h2]
          refine ⟨by omega, ?_, ?_, by simp⟩
          · intro t ht
            exact lt_of_lt_of_le (keySorted_get hs t ⟨(i + j) / 2, hm⟩ ht)
              (le_of_eq (le_antisymm (not_lt.mp h1) (not_lt.mp h2)))
          · intro _
            exact ⟨hm, le_antisymm (not_lt.mp h1) (not_lt.mp h2)⟩
    · rw [dif_neg h]
      by_cases h1 : q < (v.get ⟨i, hi⟩).1
      · rw [if_pos h1]
        refine ⟨by omega, hlow, by simp, ?_⟩
        intro _ t ht
        rcases Nat.eq_or_lt_of_le ht with he | hl
        · have : t = ⟨i, hi⟩ := Fin.ext he.symm
          rw [this]; exact h1
        · exact hhigh t (by omega)
      · rw [if_neg h1]
        by_cases h2 : (v.get ⟨i, hi⟩).1 < q
        · rw [if_pos h2]
          refine ⟨by omega, ?_, by simp, ?_⟩
          · intro t ht
            rcases Nat.lt_or_ge (t : Nat) i with hl | hg
            · exact hlow t hl
            · have : t = ⟨i, hi⟩ := Fin.ext (show (t : Nat) = i by omega)
              rw [this]; exact h2
          · intro _ t ht
            exact hhigh t (by omega)
        · rw [if_neg h2]
          refine ⟨by omega, hlow, ?_, by simp⟩
          intro _
          exact ⟨hi, le_antisymm (not_lt.mp h1) (not_lt.mp h2)⟩

theorem pairSearchBinary_ok {U : Type} (v : List (Int × U)) (q : Int)
    (hs : KeySorted v) :
    SearchOK v q (pairSearchBinary v q).1 (pairSearchBinary v q).2 := by
  match v with
  | [] =>
    refine ⟨le_refl _, ?_, by simp [pairSearchBinary], ?_⟩
    · intro t; exact absurd t.isLt (by simp)
    · intro _ t; exact absurd t.isLt (by simp)
  | [p] =>
    have := pairSearchLinear_ok [p] q hs
    have he : pairSearchBinary [p] q = pairSearchLinear [p] q := by
      simp only [pairSearchBinary, pairSearchLinear]
    rw [he]
    exact this
  | a :: b :: rest =>
    refine binLoop_ok (a :: b :: rest) q hs ((a :: b :: rest).length) 0
      ((a :: b :: rest).length - 1) (by simp) (by simp) (by omega) ?_ ?_
    · intro t ht; omega
    · intro t ht
      have := t.isLt
      omega

/-- C5: for every strictly key-sorted sequence of pairs and every query key,
the linear scan and the binary search return the identical
`(position, found)` pair, `position` being the insertion point preserving
sort order and `found` flagging an exact match; the size-threshold dispatch
`search` therefore never changes observable behavior, and the empty sequence
yields `(0, false)`. -/
theorem search_linear_binary_equiv {U : Type} (v : List (Int × U)) (q : Int)
    (hs : KeySorted v) :
    pairSearchLinear v q = pairSearchBinary v q ∧
    searchPair v q = pairSearchLinear v q ∧
    searchPair ([] : List (Int × U)) q = (0, false) ∧
    SearchOK v q (pairSearchLinear v q).1 (pairSearchLinear v q).2 := by
  have hl := pairSearchLinear_ok v q hs
  have hb := pairSearchBinary_ok v q hs
  obtain ⟨h1, h2⟩ := searchOK_unique hl hb
  have hpair : pairSearchLinear v q = pairSearchBinary v q := by
    have e1 : pairSearchLinear v q =
        ((pairSearchLinear v q).1, (pairSearchLinear v q).2) := rfl
    have e2 : pairSearchBinary v q =
        ((pairSearchBinary v q).1, (pairSearchBinary v q).2) := rfl
    rw [e1, e2, h1, h2]
  refine ⟨hpair, ?_, rfl, hl⟩
  unfold searchPair
  by_cases hc : v.length ≤ 32
  · rw [if_pos hc]
  · rw [if_neg hc, hpair]

/-- A strictly sorted sequence of 33 pairs: exercises the `> 32` binary-search
branch of the dispatch. -/
def searchWitnessList : List (Int × Int) :=
  (List.range 33).map (fun n => ((n : Int) * 2, 0))

theorem search_linear_binary_equiv_witness :
    KeySorted searchWitnessList ∧
    (pairSearchLinear searchWitnessList 7 = pairSearchBinary searchWitnessList 7 ∧
     searchPair searchWitnessList 7 = pairSearchLinear searchWitnessList 7 ∧
     searchPair ([] : List (Int × Int)) 7 = (0, false) ∧
     SearchOK searchWitnessList 7 (pairSearchLinear searchWitnessList 7).1
       (pairSearchLinear searchWitnessList 7).2) :=
  ⟨by decide, search_linear_binary_equiv searchWitnessList 7 (by decide)⟩

/-! ## Section 2: the tree nodes

`CT d` is the tree with `d` key levels. `CT 0` is the leaf node
(`ctree<value_t, metadata_t>`, an array of `(value, metadata)` pairs); an
internal node (`ctree<value_t, metadata_t, key_t, keys_t...>`) is its sorted
children vector of `(key, subtree)` pairs together with the cached element
count `m_size`.  -/

@[reducible] def CT : Nat → Type
  | 0 => List (Int × Int)
  | d + 1 => List (Int × CT d) × Nat

instance instDecEqCT : (d : Nat) → DecidableEq (CT d)
  | 0 => inferInstanceAs (DecidableEq (List (Int × Int)))
  | d + 1 =>
    have := instDecEqCT d
    inferInstanceAs (DecidableEq (List (Int × CT d) × Nat))

/-- A default-constructed (empty) node. -/
def emptyCT : (d : Nat) → CT d
  | 0 => []
  | _ + 1 => ([], 0)

/-- `size()`: the leaf returns `m_data.size()`, an internal node returns the
cached `m_size`. -/
def sizeT : (d : Nat) → CT d → Nat
  | 0, data => data.length
  | _ + 1, t => t.2

/-- `num_keys()` of the leaf `ctree<value_t, metadata_t>` (part_013, lines
461-464): it returns `m_data.size()`. For an internal node it is the number
of children. -/
def numKeysT : (d : Nat) → CT d → Nat
  | 0, data => data.length
  | _ + 1, t => t.1.length

/-- `num_keys()` of the other leaf implementation, `ctree<data_t, metadata_t>`
of `ctree/ctree_empty.hpp` (lines 262-265): it returns `0` unconditionally. -/
def ctreeEmptyNumKeys (_ : List (Int × Int)) : Nat := 0

/-- The key tuple handed to `add`: one `Int` key per level. -/
@[reducible] def Keys : Nat → Type
  | 0 => Unit
  | d + 1 => Int × Keys d

/-- `vector::insert(begin() + i, x)`. -/
def insertAt {α : Type} (l : List α) (i : Nat) (x : α) : List α :=
  l.take i ++ x :: l.drop i

theorem length_insertAt {α : Type} (l : List α) (i : Nat) (x : α) :
    (insertAt l i x).length = l.length + 1 := by
  simp [insertAt]
  omega

theorem mem_insertAt {α : Type} {l : List α} {i : Nat} {x y : α}
    (h : y ∈ insertAt l i x) : y = x ∨ y ∈ l := by
  simp only [insertAt, List.mem_append, List.mem_cons] at h
  rcases h with h | h | h
  · exact Or.inr (List.mem_of_mem_take h)
  · exact Or.inl h
  · exact Or.inr (List.mem_of_mem_drop h)

/-- Leaf `add<unique>(val, meta)` (part_013, lines 340-408), at an ordered
value type with mergeable metadata: in unique mode, search; on a hit merge
the metadata into the existing entry and report `false`; on a miss insert at
the returned position and report `true`.  In non-unique mode insert at the
search position and report `true`. -/
def leafAdd (unique : Bool) (data : List (Int × Int)) (val meta : Int) :
    List (Int × Int) × Bool :=
  if unique then
    let s := searchPair data val
    if s.2 then
      (data.set s.1 ((data.getD s.1 (0, 0)).1, (data.getD s.1 (0, 0)).2 + meta),
       false)
    else
      (insertAt data s.1 (val, meta), true)
  else
    (insertAt data (searchPair data val).1 (val, meta), true)

/-- `add_empty` (part_011 lines 180-195 and part_013 lines 421-429): append a
fresh `(key, empty child)` pair and recurse into `m_children[0]`; the leaf
appends the entry.  Always reports `true`. -/
def addEmptyT : (d : Nat) → CT d → Int → Int → Keys d → CT d × Bool :=
  fun d => match d with
  | 0 => fun data v m _ => (data ++ [(v, m)], true)
  | d + 1 => fun t v m hks =>
    let ch1 := t.1 ++ [(hks.1, emptyCT d)]
    let c0 := ch1.getD 0 (0, emptyCT d)
    let r := addEmptyT d c0.2 v m hks.2
    ((ch1.set 0 (c0.1, r.1), t.2 + 1), r.2)

/-- Internal `add<unique>(value, h, ks...)` (part_011, lines 138-165): search
the children for the first key; if absent, insert a fresh empty child at the
returned position, bump `m_size` by one and fill the new child through the
`add_empty` fast path; if present, delegate to the child and bump `m_size`
by the child's reported delta. -/
def addT (unique : Bool) : (d : Nat) → CT d → Int → Int → Keys d → CT d × Bool
  | 0, data, v, m, _ => leafAdd unique data v m
  | d + 1, t, v, m, hks =>
    let s := searchPair t.1 hks.1
    if s.2 then
      let ci := t.1.getD s.1 (0, emptyCT d)
      let r := addT unique d ci.2 v m hks.2
      ((t.1.set s.1 (ci.1, r.1), t.2 + (if r.2 then 1 else 0)), r.2)
    else
      let c0 := addEmptyT d (emptyCT d) v m hks.2
      ((insertAt t.1 s.1 (hks.1, c0.1), t.2 + 1), c0.2)

/-- One step of the leaf `merge` loop: `added_elems += add<unique>(v, m)`. -/
def leafMergeStep (unique : Bool) (acc : List (Int × Int) × Nat)
    (p : Int × Int) : List (Int × Int) × Nat :=
  let r := leafAdd unique acc.1 p.1 p.2
  (r.1, acc.2 + (if r.2 then 1 else 0))

/-- Leaf `merge<unique>` (part_013, lines 437-445): move every entry of the
other leaf in through `add<unique>`, counting the `true` returns. -/
def leafMerge (unique : Bool) (a b : List (Int × Int)) :
    List (Int × Int) × Nat :=
  b.foldl (leafMergeStep unique) (a, 0)

/-- One iteration of the internal `merge` loop over the other tree's
`(key, child)` pairs; `rec` is the recursive merge on the children. -/
def mergeStep (d : Nat) (rec : CT d → CT d → CT d × Nat)
    (acc : List (Int × CT d) × Nat) (kc : Int × CT d) :
    List (Int × CT d) × Nat :=
  let s := searchPair acc.1 kc.1
  if s.2 then
    let ci := acc.1.getD s.1 (0, emptyCT d)
    let rr := rec ci.2 kc.2
    (acc.1.set s.1 (ci.1, rr.1), acc.2 + rr.2)
  else
    (insertAt acc.1 s.1 kc, acc.2 + sizeT d kc.2)

/-- Internal `merge<unique>` (part_011, lines 203-222): for each `(key, child)`
of the other tree, either move the whole subtree in (bumping `m_size` by its
size) or recursively merge into the existing child (bumping `m_size` by the
returned delta); the function returns `m_size - old_size`. -/
def mergeT (unique : Bool) : (d : Nat) → CT d → CT d → CT d × Nat
  | 0, a, b => leafMerge unique a b
  | d + 1, a, b =>
    let r := b.1.foldl (mergeStep d (mergeT unique d)) (a.1, a.2)
    ((r.1, r.2), r.2 - a.2)

theorem leafAdd_length (unique : Bool) (data : List (Int × Int))
    (val meta : Int) :
    (leafAdd unique data val meta).1.length =
      data.length + (if (leafAdd unique data val meta).2 then 1 else 0) := by
  unfold leafAdd
  by_cases hu : unique
  · rw [if_pos hu]
    by_cases hf : (searchPair data val).2
    · simp only [hf, if_pos, if_true]
      simp [List.length_set]
    · simp only [hf, if_false, Bool.false_eq_true, ite_false, ite_true]
      simp [length_insertAt]
  · rw [if_neg hu]
    simp [length_insertAt]

theorem addEmptyT_true (d : Nat) (t : CT d) (v m : Int) (ks : Keys d) :
    (addEmptyT d t v m ks).2 = true := by
  induction d with
  | zero => rfl
  | succ d ih =>
    show (addEmptyT (d + 1) t v m ks).2 = true
    unfold addEmptyT
    exact ih _ _

theorem addT_size (unique : Bool) (d : Nat) (t : CT d) (v m : Int)
    (ks : Keys d) :
    sizeT d (addT unique d t v m ks).1 =
      sizeT d t + (if (addT unique d t v m ks).2 then 1 else 0) := by
  cases d with
  | zero =>
    show (leafAdd unique t v m).1.length = _
    exact leafAdd_length unique t v m
  | succ d =>
    unfold addT
    by_cases hf : (searchPair t.1 ks.1).2
    · simp only [hf, if_true]
      rfl
    · simp only [hf, Bool.false_eq_true, if_false]
      rw [addEmptyT_true]
      rfl

theorem addT_true_of_not_unique (d : Nat) (t : CT d) (v m : Int)
    (ks : Keys d) : (addT false d t v m ks).2 = true := by
  induction d with
  | zero =>
    show (leafAdd false t v m).2 = true
    rfl
  | succ d ih =>
    unfold addT
    by_cases hf : (searchPair t.1 ks.1).2
    · simp only [hf, if_true]
      exact ih _ _
    · simp only [hf, Bool.false_eq_true, if_false]
      exact addEmptyT_true _ _ _ _ _

/-- A sequence of `add` calls starting from the empty tree: the result tree
and the number of calls that returned `true`. -/
def runAdds (unique : Bool) (d : Nat)
    (inputs : List (Int × Int × Keys d)) : CT d × Nat :=
  inputs.foldl (fun acc inp =>
    let r := addT unique d acc.1 inp.1 inp.2.1 inp.2.2
    (r.1, acc.2 + (if r.2 then 1 else 0))) (emptyCT d, 0)

theorem runAdds_size_aux (unique : Bool) (d : Nat)
    (inputs : List (Int × Int × Keys d)) :
    ∀ acc : CT d × Nat, sizeT d acc.1 = acc.2 →
    sizeT d (inputs.foldl (fun acc inp =>
      let r := addT unique d acc.1 inp.1 inp.2.1 inp.2.2
      (r.1, acc.2 + (if r.2 then 1 else 0))) acc).1 =
    (inputs.foldl (fun acc inp =>
      let r := addT unique d acc.1 inp.1 inp.2.1 inp.2.2
      (r.1, acc.2 + (if r.2 then 1 else 0))) acc).2 := by
  induction inputs with
  | nil => intro acc h; exact h
  | cons p rest ih =>
    intro acc h
    simp only [List.foldl_cons]
    apply ih
    simp only []
    rw [addT_size, h]

/-- C6: after every `add` call on a tree built from empty, `size()` equals
the number of `true`-returning `add` calls so far; in non-unique mode every
call returns `true`, so `size()` equals the total call count. -/
theorem add_size_invariant (unique : Bool) (d : Nat)
    (inputs : List (Int × Int × Keys d)) :
    sizeT d (runAdds unique d inputs).1 = (runAdds unique d inputs).2 ∧
    (unique = false → (runAdds unique d inputs).2 = inputs.length) := by
  constructor
  · apply runAdds_size_aux
    cases d <;> rfl
  · intro hu
    subst hu
    unfold runAdds
    have aux : ∀ acc : CT d × Nat,
        (inputs.foldl (fun acc inp =>
          let r := addT false d acc.1 inp.1 inp.2.1 inp.2.2
          (r.1, acc.2 + (if r.2 then 1 else 0))) acc).2 =
        acc.2 + inputs.length := by
      induction inputs with
      | nil => intro acc; simp
      | cons p rest ih =>
        intro acc
        simp only [List.foldl_cons, List.length_cons]
        rw [ih]
        simp only [addT_true_of_not_unique, ite_true]
        omega
    rw [aux]
    simp

theorem leafMergeStep_length (unique : Bool) (acc : List (Int × Int) × Nat)
    (p : Int × Int) :
    (leafMergeStep unique acc p).1.length + acc.2 =
      acc.1.length + (leafMergeStep unique acc p).2 := by
  unfold leafMergeStep
  simp only []
  have := leafAdd_length unique acc.1 p.1 p.2
  by_cases hb : (leafAdd unique acc.1 p.1 p.2).2 <;> simp [hb] at this ⊢ <;> omega

theorem leafMerge_fold_length (unique : Bool) (l : List (Int × Int)) :
    ∀ acc : List (Int × Int) × Nat,
    (l.foldl (leafMergeStep unique) acc).1.length + acc.2 =
      acc.1.length + (l.foldl (leafMergeStep unique) acc).2 := by
  induction l with
  | nil => intro acc; rfl
  | cons p rest ih =>
    intro acc
    simp only [List.foldl_cons]
    have h1 := ih (leafMergeStep unique acc p)
    have h2 := leafMergeStep_length unique acc p
    omega

theorem leafMerge_length (unique : Bool) (a b : List (Int × Int)) :
    (leafMerge unique a b).1.length = a.length + (leafMerge unique a b).2 := by
  have h : (b.foldl (leafMergeStep unique) (a, 0)).1.length + 0 =
      a.length + (b.foldl (leafMergeStep unique) (a, 0)).2 :=
    leafMerge_fold_length unique b (a, 0)
  unfold leafMerge
  omega

theorem mergeStep_mono (d : Nat) (rec : CT d → CT d → CT d × Nat)
    (acc : List (Int × CT d) × Nat) (kc : Int × CT d) :
    acc.2 ≤ (mergeStep d rec acc kc).2 := by
  unfold mergeStep
  by_cases hf : (searchPair acc.1 kc.1).2 <;> simp [hf]

theorem merge_fold_mono (d : Nat) (rec : CT d → CT d → CT d × Nat)
    (l : List (Int × CT d)) :
    ∀ acc : List (Int × CT d) × Nat,
    acc.2 ≤ (l.foldl (mergeStep d rec) acc).2 := by
  induction l with
  | nil => intro acc; exact le_refl _
  | cons kc rest ih =>
    intro acc
    simp only [List.foldl_cons]
    exact le_trans (mergeStep_mono d rec acc kc) (ih _)

/-- C7: for all trees `A` and `B` of the same shape, `size()` after
`A.merge(B)` equals `A.size()` before the call plus the value returned by
the merge: at an internal node the return value is literally the growth of
the cached `m_size` (keys absent from `A` move their whole subtree in and
bump `m_size` by that subtree's size, keys present merge recursively and
bump it by the returned delta), and at a leaf it is the count of
`true`-returning `add` calls. -/
theorem merge_size_additive (unique : Bool) (d : Nat) (A B : CT d) :
    sizeT d (mergeT unique d A B).1 = sizeT d A + (mergeT unique d A B).2 := by
  cases d with
  | zero => exact leafMerge_length unique A B
  | succ d =>
    have h : (A.1, A.2).2 ≤
        (B.1.foldl (mergeStep d (mergeT unique d)) (A.1, A.2)).2 :=
      merge_fold_mono d (mergeT unique d) B.1 (A.1, A.2)
    show (B.1.foldl (mergeStep d (mergeT unique d)) (A.1, A.2)).2 =
      A.2 + ((B.1.foldl (mergeStep d (mergeT unique d)) (A.1, A.2)).2 - A.2)
  
    omega

/-- C8, counterexample: the leaf `ctree<value_t, metadata_t>` of part_013
(lines 461-464) returns `m_data.size()` from `num_keys()`, so a leaf holding
one entry answers `1`, not `0`; the claim as stated is false on that
implementation. -/
theorem leaf_num_keys_zero_cex :
    ¬ (∀ data : List (Int × Int), numKeysT 0 data = 0) := by
  intro h
  have := h [(1, 1)]
  simp [numKeysT] at this

/-- C8, amended: the `ctree/ctree_empty.hpp` leaf's `num_keys()` does return
`0` for every leaf (lines 262-265), while the part_013 leaf's `num_keys()`
returns the number of stored entries — the same value as `size()` — which is
`0` exactly when the leaf is empty. -/
theorem leaf_num_keys_amended (data : List (Int × Int)) :
    ctreeEmptyNumKeys data = 0 ∧
    numKeysT 0 data = data.length ∧
    numKeysT 0 data = sizeT 0 data ∧
    (numKeysT 0 data = 0 ↔ data = []) := by
  refine ⟨rfl, rfl, rfl, ?_⟩
  simp [numKeysT, List.length_eq_zero]

/-! ## Section 3: the full (unfiltered) bidirectional iterator

`detail::iterator_` of `ctree/iterator.hpp`: the leaf specialization (lines
130-239) and the internal specialization (lines 250-441).  A level's state is
the pointed-to (sub)tree, the vector-iterator index `m_it`, the
`m_past_begin` flag and, for internal levels, the owned subtree iterator. -/

structure LeafItSt where
  tree : List (Int × Int)
  it : Nat
  pb : Bool
deriving DecidableEq

structure NodeItStOf (σ τ : Type) where
  tree : τ
  it : Nat
  pb : Bool
  sub : σ
deriving DecidableEq

@[reducible] def ItSt : Nat → Type
  | 0 => LeafItSt
  | d + 1 => NodeItStOf (ItSt d) (CT (d + 1))

/-- A default-constructed iterator level (the subtree iterator of an empty
node is never initialized by `to_begin`/`to_end`; its fields keep their
defaults). -/
def defaultIt : (d : Nat) → ItSt d
  | 0 => ⟨[], 0, false⟩
  | d + 1 => ⟨emptyCT (d + 1), 0, false, defaultIt d⟩

/-- The child stored under index `i` of a children vector. -/
def childAt (d : Nat) (ch : List (Int × CT d)) (i : Nat) : CT d :=
  (ch.getD i (0, emptyCT d)).2

/-- `to_begin()` (iterator.hpp lines 140-150 and 273-285): on an empty node
set `m_past_begin` and park `m_it` at `end()`; otherwise park `m_it` at
`begin()` and recursively initialize the subtree iterator on the first
child. -/
def toBeginIt : (d : Nat) → CT d → ItSt d
  | 0, data =>
    if data.length = 0 then ⟨data, data.length, true⟩ else ⟨data, 0, false⟩
  | d + 1, t =>
    if sizeT (d + 1) t = 0 then ⟨t, t.1.length, true, defaultIt d⟩
    else ⟨t, 0, false, toBeginIt d (childAt d t.1 0)⟩

/-- `to_end()` (iterator.hpp lines 152-163 and 287-300). -/
def toEndIt : (d : Nat) → CT d → ItSt d
  | 0, data =>
    if data.length = 0 then ⟨data, data.length, true⟩
    else ⟨data, data.length - 1, false⟩
  | d + 1, t =>
    if sizeT (d + 1) t = 0 then ⟨t, t.1.length, true, defaultIt d⟩
    else ⟨t, t.1.length - 1, false,
      toEndIt d (childAt d t.1 (t.1.length - 1))⟩

/-- `end()` (iterator.hpp lines 202-205 and 358-364): empty trees report
`true`; otherwise `m_it == m_tree->end()` (leaf) respectively
`shallow_end() and sub.end()` (internal). -/
def itEnd : (d : Nat) → ItSt d → Bool
  | 0, s => s.tree.length ≤ s.it
  | d + 1, s =>
    if sizeT (d + 1) s.tree = 0 then true
    else (s.tree.1.length ≤ s.it) && itEnd d s.sub

/-- `past_begin()` (iterator.hpp lines 197-200 and 350-356). -/
def itPastBegin : (d : Nat) → ItSt d → Bool
  | 0, s => s.pb
  | d + 1, s =>
    if sizeT (d + 1) s.tree = 0 then true
    else s.pb && itPastBegin d s.sub

/-- `begin()` (iterator.hpp lines 192-195 and 342-348). -/
def itBegin : (d : Nat) → ItSt d → Bool
  | 0, s => !s.pb && (s.it == 0)
  | d + 1, s =>
    if sizeT (d + 1) s.tree = 0 then true
    else (!s.pb && (s.it == 0)) && itBegin d s.sub

/-- `operator*` (the dereference): the `(value, metadata)` pair under the
innermost cursor. -/
def itDeref : (d : Nat) → ItSt d → Int × Int
  | 0, s => s.tree.getD s.it (0, 0)
  | d + 1, s => itDeref d s.sub

/-- `operator++` (iterator.hpp lines 166-173 and 303-314): clear
`m_past_begin`; advance the subtree iterator; if it has hit its end, advance
`m_it` and, unless `shallow_end()`, re-anchor the subtree iterator at the new
child's beginning. -/
def incIt : (d : Nat) → ItSt d → ItSt d
  | 0, s => if s.pb then { s with pb := false } else { s with it := s.it + 1 }
  | d + 1, s =>
    let sub1 := incIt d s.sub
    if itEnd d sub1 then
      if s.tree.1.length ≤ s.it + 1 then ⟨s.tree, s.it + 1, false, sub1⟩
      else ⟨s.tree, s.it + 1, false,
        toBeginIt d (childAt d s.tree.1 (s.it + 1))⟩
    else ⟨s.tree, s.it, false, sub1⟩

/-- `operator--` (iterator.hpp lines 181-189 and 322-339): retreat the
subtree iterator; if it reports past-begin, either set this level's
`m_past_begin` (when at `shallow_begin()`) or step `m_it` back and re-anchor
the subtree iterator at the previous child's end; finally, if at
`shallow_end()`, step `m_it` back once. -/
def decIt : (d : Nat) → ItSt d → ItSt d
  | 0, s =>
    if !s.pb && (s.it == 0) then { s with pb := true }
    else { s with it := s.it - 1 }
  | d + 1, s =>
    let sub1 := decIt d s.sub
    let s1 : ItSt (d + 1) :=
      if itPastBegin d sub1 then
        if !s.pb && (s.it == 0) then ⟨s.tree, s.it, true, sub1⟩
        else ⟨s.tree, s.it - 1, s.pb,
          toEndIt d (childAt d s.tree.1 (s.it - 1))⟩
      else ⟨s.tree, s.it, s.pb, sub1⟩
    if s.tree.1.length ≤ s1.it then { s1 with it := s1.it - 1 } else s1

/-- The leaf entries of the tree in key order: the sequence a full forward
iteration visits. -/
def flattenT : (d : Nat) → CT d → List (Int × Int)
  | 0, data => data
  | d + 1, t => t.1.foldr (fun c acc => flattenT d c.2 ++ acc) []

/-- Trees reachable by at least one `add`: positive cached size at every
internal node, nonempty children lists, nonempty leaves. -/
def WFp : (d : Nat) → CT d → Prop
  | 0, data => data ≠ []
  | d + 1, t => t.2 ≠ 0 ∧ t.1 ≠ [] ∧ ∀ c ∈ t.1, WFp d c.2

/-- A full forward run: from `s`, repeatedly dereference and `++` until
`end()` holds, collecting the dereferenced pairs. -/
inductive RunsF (d : Nat) : ItSt d → List (Int × Int) → Prop
  | done (s : ItSt d) : itEnd d s = true → RunsF d s []
  | step (s : ItSt d) (L : List (Int × Int)) : itEnd d s = false →
      RunsF d (incIt d s) L → RunsF d s (itDeref d s :: L)

/-- A full backward run: from `s`, repeatedly dereference and `--` until
`past_begin()` holds. -/
inductive RunsB (d : Nat) : ItSt d → List (Int × Int) → Prop
  | done (s : ItSt d) : itPastBegin d s = true → RunsB d s []
  | step (s : ItSt d) (L : List (Int × Int)) : itPastBegin d s = false →
      RunsB d (decIt d s) L → RunsB d s (itDeref d s :: L)

/-- Flatten of the children from index `i` on. -/
def flatFrom (d : Nat) (ch : List (Int × CT d)) (i : Nat) : List (Int × Int) :=
  (ch.drop i).foldr (fun c acc => flattenT d c.2 ++ acc) []

/-- Flatten of the first `i` children. -/
def flatTo (d : Nat) (ch : List (Int × CT d)) (i : Nat) : List (Int × Int) :=
  (ch.take i).foldr (fun c acc => flattenT d c.2 ++ acc) []

theorem flattenT_node (d : Nat) (t : CT (d + 1)) :
    flattenT (d + 1) t = flatFrom d t.1 0 := by
  simp [flattenT, flatFrom]

theorem childAt_eq (d : Nat) (ch : List (Int × CT d)) (i : Nat)
    (h : i < ch.length) : childAt d ch i = (ch[i]).2 := by
  unfold childAt
  rw [List.getD_eq_getElem ch (0, emptyCT d) h]

theorem foldr_flatten_acc (d : Nat) (l : List (Int × CT d))
    (A : List (Int × Int)) :
    l.foldr (fun c acc => flattenT d c.2 ++ acc) A =
      l.foldr (fun c acc => flattenT d c.2 ++ acc) [] ++ A := by
  induction l with
  | nil => simp
  | cons c rest ih =>
    rw [List.foldr_cons, List.foldr_cons, ih, List.append_assoc]

theorem flatFrom_succ (d : Nat) (ch : List (Int × CT d)) (i : Nat)
    (h : i < ch.length) :
    flatFrom d ch i = flattenT d (childAt d ch i) ++ flatFrom d ch (i + 1) := by
  unfold flatFrom
  rw [List.drop_eq_getElem_cons h, List.foldr_cons, childAt_eq d ch i h]

theorem flatFrom_of_le (d : Nat) (ch : List (Int × CT d)) (i : Nat)
    (h : ch.length ≤ i) : flatFrom d ch i = [] := by
  unfold flatFrom
  rw [List.drop_eq_nil_of_le h]
  rfl

theorem flatTo_succ (d : Nat) (ch : List (Int × CT d)) (i : Nat)
    (h : i < ch.length) :
    flatTo d ch (i + 1) = flatTo d ch i ++ flattenT d (childAt d ch i) := by
  unfold flatTo
  rw [List.take_succ, List.getElem?_eq_getElem h]
  rw [List.foldr_append]
  simp only [Option.toList_some, List.foldr_cons, List.foldr_nil,
    List.append_nil]
  rw [foldr_flatten_acc, childAt_eq d ch i h]

theorem flatTo_length (d : Nat) (ch : List (Int × CT d)) :
    flatTo d ch ch.length = flatFrom d ch 0 := by
  unfold flatTo flatFrom
  rw [List.take_length, List.drop_zero]

theorem flattenT_ne_nil : ∀ (d : Nat) (t : CT d), WFp d t →
    flattenT d t ≠ [] := by
  intro d
  induction d with
  | zero => intro t hwf; exact hwf
  | succ d ih =>
    intro t hwf
    obtain ⟨hms, hne, hch⟩ := hwf
    match hch1 : t.1, hne with
    | c :: rest, _ =>
      show flattenT (d + 1) t ≠ []
      unfold flattenT
      rw [hch1]
      simp only [List.foldr_cons]
      have := ih c.2 (hch c (by rw [hch1]; exact List.mem_cons_self c rest))
      intro hcon
      rcases List.append_eq_nil.mp hcon with ⟨h1, _⟩
      exact this h1

theorem childAt_mem (d : Nat) (ch : List (Int × CT d)) (i : Nat)
    (h : i < ch.length) : (0, emptyCT d).2 = (emptyCT d) ∧
    ∃ c ∈ ch, childAt d ch i = c.2 := by
  refine ⟨rfl, ch[i], List.get_mem ch i h, ?_⟩
  exact childAt_eq d ch i h

theorem leafRunsF (data : List (Int × Int)) :
    ∀ (fuel k : Nat), data.length - k ≤ fuel → k ≤ data.length →
    RunsF 0 ⟨data, k, false⟩ (data.drop k) := by
  intro fuel
  induction fuel with
  | zero =>
    intro k h1 h2
    have hk : k = data.length := by omega
    subst hk
    rw [List.drop_length]
    exact RunsF.done _ (by simp [itEnd])
  | succ n ih =>
    intro k h1 h2
    by_cases hk : k = data.length
    · subst hk
      rw [List.drop_length]
      exact RunsF.done _ (by simp [itEnd])
    · have hklt : k < data.length := by omega
      have hderef : itDeref 0 ⟨data, k, false⟩ = data[k] := by
        show data.getD k (0, 0) = _
        exact List.getD_eq_getElem data (0, 0) hklt
      have hinc : incIt 0 ⟨data, k, false⟩ = ⟨data, k + 1, false⟩ := by
        simp [incIt]
      rw [List.drop_eq_getElem_cons hklt]
      have hstep := RunsF.step (d := 0) ⟨data, k, false⟩ (data.drop (k + 1))
        (by simp [itEnd]; omega)
        (by rw [hinc]; exact ih (k + 1) (by omega) (by omega))
      rw [hderef] at hstep
      exact hstep

theorem segF (d : Nat) (t : CT (d + 1)) (hms : t.2 ≠ 0)
    (hch : ∀ c ∈ t.1, WFp d c.2)
    (hIH : ∀ c ∈ t.1, RunsF d (toBeginIt d c.2) (flattenT d c.2)) :
    ∀ (k i : Nat), i < t.1.length → t.1.length - i ≤ k →
    ∀ (Lsub : List (Int × Int)) (ssub : ItSt d), RunsF d ssub Lsub →
    Lsub ≠ [] →
    RunsF (d + 1) ⟨t, i, false, ssub⟩ (Lsub ++ flatFrom d t.1 (i + 1)) := by
  intro k
  induction k with
  | zero => intro i hi hk; omega
  | succ k ihk =>
    intro i hi hk Lsub
    induction Lsub with
    | nil => intro ssub _ hne; exact absurd rfl hne
    | cons x Lrest ihL =>
      intro ssub hruns _
      cases hruns with
      | step _ _ hend hrec =>
        rw [List.cons_append]
        refine RunsF.step _ _ ?_ ?_
        · simp [itEnd, sizeT, hms, hend]
        · show RunsF (d + 1) (incIt (d + 1) ⟨t, i, false, ssub⟩)
            (Lrest ++ flatFrom d t.1 (i + 1))
          cases Lrest with
          | cons y ys =>
            have hsubend : itEnd d (incIt d ssub) = false := by
              cases hrec with
              | step _ _ h _ => exact h
            have heq : incIt (d + 1) ⟨t, i, false, ssub⟩ =
                ⟨t, i, false, incIt d ssub⟩ := by
              simp [incIt, hsubend]
            rw [heq]
            exact ihL (incIt d ssub) hrec (by simp)
          | nil =>
            have hsubend : itEnd d (incIt d ssub) = true := by
              cases hrec with
              | done _ h => exact h
            by_cases hlast : t.1.length ≤ i + 1
            · have heq : incIt (d + 1) ⟨t, i, false, ssub⟩ =
                  ⟨t, i + 1, false, incIt d ssub⟩ := by
                simp [incIt, hsubend, hlast]
              rw [heq, List.nil_append, flatFrom_of_le d t.1 (i + 1) hlast]
              exact RunsF.done _
                (by simp [itEnd, sizeT, hms, hlast, hsubend])
            · have hlt : i + 1 < t.1.length := by omega
              have heq : incIt (d + 1) ⟨t, i, false, ssub⟩ =
                  ⟨t, i + 1, false, toBeginIt d (childAt d t.1 (i + 1))⟩ := by
                simp [incIt, hsubend, hlast]
              rw [heq, List.nil_append, flatFrom_succ d t.1 (i + 1) hlt]
              obtain ⟨-, c, hcmem, hceq⟩ := childAt_mem d t.1 (i + 1) hlt
              refine ihk (i + 1) hlt (by omega)
                (flattenT d (childAt d t.1 (i + 1)))
                (toBeginIt d (childAt d t.1 (i + 1))) ?_ ?_
              · rw [hceq]; exact hIH c hcmem
              · rw [hceq]; exact flattenT_ne_nil d c.2 (hch c hcmem)

theorem runsF_toBegin : ∀ (d : Nat) (t : CT d), WFp d t →
    RunsF d (toBeginIt d t) (flattenT d t) := by
  intro d
  induction d with
  | zero =>
    intro t hwf
    have hne : t.length ≠ 0 := fun h => hwf (List.length_eq_zero.mp h)
    have heq : toBeginIt 0 t = ⟨t, 0, false⟩ := by simp [toBeginIt, hne]
    rw [heq]
    have := leafRunsF t t.length 0 (by omega) (by omega)
    simpa using this
  | succ d ih =>
    intro t hwf
    obtain ⟨hms, hne, hch⟩ := hwf
    have hlen : 0 < t.1.length := List.length_pos.mpr hne
    have ht : toBeginIt (d + 1) t =
        ⟨t, 0, false, toBeginIt d (childAt d t.1 0)⟩ := by
      simp [toBeginIt, sizeT, hms]
    rw [ht, flattenT_node, flatFrom_succ d t.1 0 hlen]
    obtain ⟨-, c, hcmem, hceq⟩ := childAt_mem d t.1 0 hlen
    refine segF d t hms hch (fun c hc => ih c.2 (hch c hc)) (t.1.length) 0
      hlen (by omega) _ _ ?_ ?_
    · rw [hceq]; exact ih c.2 (hch c hcmem)
    · rw [hceq]; exact flattenT_ne_nil d c.2 (hch c hcmem)

theorem leafRunsB (data : List (Int × Int)) :
    ∀ (k : Nat), k < data.length →
    RunsB 0 ⟨data, k, false⟩ ((data.take (k + 1)).reverse) := by
  intro k
  induction k with
  | zero =>
    intro h
    have hderef : itDeref 0 ⟨data, 0, false⟩ = data[0] := by
      show data.getD 0 (0, 0) = _
      exact List.getD_eq_getElem data (0, 0) h
    have hdec : decIt 0 ⟨data, 0, false⟩ = ⟨data, 0, true⟩ := by
      simp [decIt]
    have hlist : (data.take 1).reverse = [data[0]] := by
      rw [List.take_succ, List.getElem?_eq_getElem h]
      simp
    rw [hlist]
    have hstep := RunsB.step (d := 0) ⟨data, 0, false⟩ []
      (by simp [itPastBegin])
      (by rw [hdec]; exact RunsB.done _ (by simp [itPastBegin]))
    rw [hderef] at hstep
    exact hstep
  | succ k ihk =>
    intro h
    have hderef : itDeref 0 ⟨data, k + 1, false⟩ = data[k + 1] := by
      show data.getD (k + 1) (0, 0) = _
      exact List.getD_eq_getElem data (0, 0) h
    have hdec : decIt 0 ⟨data, k + 1, false⟩ = ⟨data, k, false⟩ := by
      simp [decIt]
    have hlist : (data.take (k + 2)).reverse =
        data[k + 1] :: (data.take (k + 1)).reverse := by
      rw [List.take_succ, List.getElem?_eq_getElem h]
      simp
    rw [hlist]
    have hstep := RunsB.step (d := 0) ⟨data, k + 1, false⟩
      ((data.take (k + 1)).reverse)
      (by simp [itPastBegin])
      (by rw [hdec]; exact ihk (by omega))
    rw [hderef] at hstep
    exact hstep

theorem segB (d : Nat) (t : CT (d + 1)) (hms : t.2 ≠ 0)
    (hch : ∀ c ∈ t.1, WFp d c.2)
    (hIH : ∀ c ∈ t.1, RunsB d (toEndIt d c.2) (flattenT d c.2).reverse) :
    ∀ (k i : Nat), i < t.1.length → i < k →
    ∀ (Lsub : List (Int × Int)) (ssub : ItSt d), RunsB d ssub Lsub →
    Lsub ≠ [] →
    RunsB (d + 1) ⟨t, i, false, ssub⟩ (Lsub ++ (flatTo d t.1 i).reverse) := by
  intro k
  induction k with
  | zero => intro i hi hk; omega
  | succ k ihk =>
    intro i hi hk Lsub
    induction Lsub with
    | nil => intro ssub _ hne; exact absurd rfl hne
    | cons x Lrest ihL =>
      intro ssub hruns _
      cases hruns with
      | step _ _ hpb hrec =>
        rw [List.cons_append]
        refine RunsB.step _ _ ?_ ?_
        · simp [itPastBegin, sizeT, hms]
        · show RunsB (d + 1) (decIt (d + 1) ⟨t, i, false, ssub⟩)
            (Lrest ++ (flatTo d t.1 i).reverse)
          cases Lrest with
          | cons y ys =>
            have hsubpb : itPastBegin d (decIt d ssub) = false := by
              cases hrec with
              | step _ _ h _ => exact h
            have heq : decIt (d + 1) ⟨t, i, false, ssub⟩ =
                ⟨t, i, false, decIt d ssub⟩ := by
              simp [decIt, hsubpb, show ¬ (t.1.length ≤ i) from by omega]
            rw [heq]
            exact ihL (decIt d ssub) hrec (by simp)
          | nil =>
            have hsubpb : itPastBegin d (decIt d ssub) = true := by
              cases hrec with
              | done _ h => exact h
            by_cases hz : i = 0
            · subst hz
              have heq : decIt (d + 1) ⟨t, 0, false, ssub⟩ =
                  ⟨t, 0, true, decIt d ssub⟩ := by
                simp [decIt, hsubpb, show ¬ (t.1.length ≤ 0) from by omega]
              rw [heq, List.nil_append]
              have hflat : flatTo d t.1 0 = [] := by simp [flatTo]
              rw [hflat, List.reverse_nil]
              exact RunsB.done _
                (by simp [itPastBegin, sizeT, hms, hsubpb])
            · have hpos : 0 < i := by omega
              have heq : decIt (d + 1) ⟨t, i, false, ssub⟩ =
                  ⟨t, i - 1, false, toEndIt d (childAt d t.1 (i - 1))⟩ := by
                simp [decIt, hsubpb, hz,
                  show ¬ (t.1.length ≤ i - 1) from by omega]
              have hsucc := flatTo_succ d t.1 (i - 1) (by omega)
              rw [show i - 1 + 1 = i from by omega] at hsucc
              have hstep2 : (flatTo d t.1 i).reverse =
                  (flattenT d (childAt d t.1 (i - 1))).reverse ++
                    (flatTo d t.1 (i - 1)).reverse := by
                rw [hsucc, List.reverse_append]
              rw [heq, List.nil_append, hstep2]
              obtain ⟨-, c, hcmem, hceq⟩ := childAt_mem d t.1 (i - 1)
                (by omega)
              refine ihk (i - 1) (by omega) (by omega) _ _ ?_ ?_
              · rw [hceq]; exact hIH c hcmem
              · rw [hceq]
                simp only [ne_eq, List.reverse_eq_nil_iff]
                exact flattenT_ne_nil d c.2 (hch c hcmem)

theorem runsB_toEnd : ∀ (d : Nat) (t : CT d), WFp d t →
    RunsB d (toEndIt d t) (flattenT d t).reverse := by
  intro d
  induction d with
  | zero =>
    intro t hwf
    have hne : t.length ≠ 0 := fun h => hwf (List.length_eq_zero.mp h)
    have heq : toEndIt 0 t = ⟨t, t.length - 1, false⟩ := by
      simp [toEndIt, hne]
    rw [heq]
    have := leafRunsB t (t.length - 1) (by omega)
    rw [show t.length - 1 + 1 = t.length from by omega, List.take_length]
      at this
    exact this
  | succ d ih =>
    intro t hwf
    obtain ⟨hms, hne, hch⟩ := hwf
    have hlen : 0 < t.1.length := List.length_pos.mpr hne
    have ht : toEndIt (d + 1) t =
        ⟨t, t.1.length - 1, false,
          toEndIt d (childAt d t.1 (t.1.length - 1))⟩ := by
      simp [toEndIt, sizeT, hms]
    have hflat : (flattenT (d + 1) t).reverse =
        (flattenT d (childAt d t.1 (t.1.length - 1))).reverse ++
          (flatTo d t.1 (t.1.length - 1)).reverse := by
      have hsucc := flatTo_succ d t.1 (t.1.length - 1) (by omega)
      rw [show t.1.length - 1 + 1 = t.1.length from by omega] at hsucc
      rw [flattenT_node, ← flatTo_length, hsucc, List.reverse_append]
    rw [ht, hflat]
    obtain ⟨-, c, hcmem, hceq⟩ := childAt_mem d t.1 (t.1.length - 1)
      (by omega)
    refine segB d t hms hch (fun c hc => ih c.2 (hch c hc)) (t.1.length)
      (t.1.length - 1) (by omega) (by omega) _ _ ?_ ?_
    · rw [hceq]; exact ih c.2 (hch c hcmem)
    · rw [hceq]
      simp only [ne_eq, List.reverse_eq_nil_iff]
      exact flattenT_ne_nil d c.2 (hch c hcmem)

theorem leafAdd_ne_nil (unique : Bool) (data : List (Int × Int))
    (v m : Int) : (leafAdd unique data v m).1 ≠ [] := by
  have hlen := leafAdd_length unique data v m
  cases data with
  | nil => cases unique <;> simp [leafAdd, searchPair, pairSearchLinear, insertAt]
  | cons a rest =>
    intro hcon
    by_cases hb : (leafAdd unique (a :: rest) v m).2 <;>
      simp [hb, hcon] at hlen

theorem addEmptyT_WFp (v m : Int) : ∀ (d : Nat) (ks : Keys d),
    WFp d (addEmptyT d (emptyCT d) v m ks).1 := by
  intro d
  induction d with
  | zero =>
    intro ks
    show (([] : List (Int × Int)) ++ [(v, m)]) ≠ []
    simp
  | succ d ih =>
    intro ks
    show WFp (d + 1)
      ([(ks.1, (addEmptyT d (emptyCT d) v m ks.2).1)], 0 + 1)
    refine ⟨by omega, by simp, ?_⟩
    intro c hc
    simp only [List.mem_singleton] at hc
    rw [hc]
    exact ih ks.2

theorem addT_WFp (unique : Bool) (v m : Int) : ∀ (d : Nat) (t : CT d)
    (ks : Keys d), (WFp d t ∨ t = emptyCT d) →
    WFp d (addT unique d t v m ks).1 := by
  intro d
  induction d with
  | zero =>
    intro t ks _
    exact leafAdd_ne_nil unique t v m
  | succ d ih =>
    intro t ks hwf
    show WFp (d + 1) (addT unique (d + 1) t v m ks).1
    unfold addT
    by_cases hf : (searchPair t.1 ks.1).2
    · rcases hwf with hwf | heq
      · obtain ⟨hms, hne, hch⟩ := hwf
        simp only [hf, if_true]
        refine ⟨?_, ?_, ?_⟩
        · intro h0
          by_cases hr : (addT unique d
              (t.1.getD (searchPair t.1 ks.1).1 (0, emptyCT d)).2 v m ks.2).2 <;>
            simp [hr] at h0 <;> omega
        · intro hcon
          have := congrArg List.length hcon
          simp only [List.length_set, List.length_nil] at this
          exact hne (List.length_eq_zero.mp this)
        · intro c hc
          rcases List.mem_or_eq_of_mem_set hc with hmem | heqc
          · exact hch c hmem
          · rw [heqc]
            by_cases hidx : (searchPair t.1 ks.1).1 < t.1.length
            · refine ih _ ks.2 (Or.inl ?_)
              rw [List.getD_eq_getElem t.1 (0, emptyCT d) hidx]
              exact hch _ (List.get_mem t.1 _ hidx)
            · refine ih _ ks.2 (Or.inr ?_)
              rw [List.getD_eq_default t.1 (0, emptyCT d) (by omega)]
      · subst heq
        have : (false : Bool) = true := hf
        cases this
    · simp only [hf, Bool.false_eq_true, if_false]
      refine ⟨by omega, ?_, ?_⟩
      · have hl := length_insertAt t.1 (searchPair t.1 ks.1).1
          (ks.1, (addEmptyT d (emptyCT d) v m ks.2).1)
        intro hcon
        have hcon' : insertAt t.1 (searchPair t.1 ks.1).1
            (ks.1, (addEmptyT d (emptyCT d) v m ks.2).1) = [] := hcon
        rw [hcon'] at hl
        simp at hl
      · intro c hc
        rcases mem_insertAt hc with heqc | hmem
        · rw [heqc]
          exact addEmptyT_WFp v m d ks.2
        · rcases hwf with hwf | heq
          · exact hwf.2.2 c hmem
          · rw [heq] at hmem
            simp [emptyCT] at hmem

/-- A tree built from the empty tree by a sequence of `add` calls; each call
carries its own `unique` flag, value, metadata and key tuple. -/
def buildT (d : Nat) (ops : List (Bool × Int × Int × Keys d)) : CT d :=
  ops.foldl (fun t op => (addT op.1 d t op.2.1 op.2.2.1 op.2.2.2).1)
    (emptyCT d)

theorem buildT_WFp (d : Nat) (ops : List (Bool × Int × Int × Keys d)) :
    WFp d (buildT d ops) ∨ buildT d ops = emptyCT d := by
  unfold buildT
  have aux : ∀ (l : List (Bool × Int × Int × Keys d)) (acc : CT d),
      (WFp d acc ∨ acc = emptyCT d) →
      (WFp d (l.foldl (fun t op =>
          (addT op.1 d t op.2.1 op.2.2.1 op.2.2.2).1) acc) ∨
        l.foldl (fun t op =>
          (addT op.1 d t op.2.1 op.2.2.1 op.2.2.2).1) acc = emptyCT d) := by
    intro l
    induction l with
    | nil => intro acc h; exact h
    | cons op rest ihl =>
      intro acc h
      simp only [List.foldl_cons]
      exact ihl _ (Or.inl (addT_WFp op.1 op.2.1 op.2.2.1 d acc op.2.2.2 h))
  exact aux ops (emptyCT d) (Or.inr rfl)

theorem sizeT_empty (d : Nat) : sizeT d (emptyCT d) = 0 := by
  cases d <;> rfl

/-- C1: for every tree built by any sequence of `add` calls, the forward
iteration from `to_begin()` until `end()` collects a list of dereferenced
`(value, metadata)` pairs, and the backward iteration from `to_end()` until
`past_begin()` collects exactly its reverse. -/
theorem full_iterator_round_trip (d : Nat)
    (ops : List (Bool × Int × Int × Keys d)) :
    ∃ L : List (Int × Int),
      RunsF d (toBeginIt d (buildT d ops)) L ∧
      RunsB d (toEndIt d (buildT d ops)) L.reverse := by
  rcases buildT_WFp d ops with hwf | heq
  · exact ⟨flattenT d (buildT d ops), runsF_toBegin d _ hwf,
      runsB_toEnd d _ hwf⟩
  · refine ⟨[], ?_, ?_⟩
    · rw [heq]
      refine RunsF.done _ ?_
      cases d with
      | zero => simp [toBeginIt, emptyCT, itEnd]
      | succ d => simp [toBeginIt, emptyCT, itEnd, sizeT]
    · rw [heq]
      refine RunsB.done _ ?_
      cases d with
      | zero => simp [toEndIt, emptyCT, itPastBegin]
      | succ d => simp [toEndIt, emptyCT, itPastBegin, sizeT]

theorem itBoundary : ∀ (d : Nat) (t : CT d), WFp d t →
    itPastBegin d (decIt d (toBeginIt d t)) = true ∧
    incIt d (decIt d (toBeginIt d t)) = toBeginIt d t ∧
    itEnd d (incIt d (toEndIt d t)) = true ∧
    decIt d (incIt d (toEndIt d t)) = toEndIt d t ∧
    itEnd d (toBeginIt d t) = false ∧
    itPastBegin d (toEndIt d t) = false := by
  intro d
  induction d with
  | zero =>
    intro t hwf
    have hne : t.length ≠ 0 := fun h => hwf (List.length_eq_zero.mp h)
    have hb : toBeginIt 0 t = ⟨t, 0, false⟩ := by simp [toBeginIt, hne]
    have he : toEndIt 0 t = ⟨t, t.length - 1, false⟩ := by
      simp [toEndIt, hne]
    have hdecb : decIt 0 (⟨t, 0, false⟩ : ItSt 0) = ⟨t, 0, true⟩ := by
      simp [decIt]
    have hince : incIt 0 (⟨t, t.length - 1, false⟩ : ItSt 0) =
        ⟨t, t.length - 1 + 1, false⟩ := by
      simp [incIt]
    rw [hb, he, hdecb, hince]
    have h3 : t.length - 1 + 1 = t.length := by omega
    refine ⟨rfl, by simp [incIt], ?_, ?_, ?_, rfl⟩
    · rw [h3]; simp [itEnd]
    · rw [h3]; simp [decIt, hne]
    · simp [itEnd]; exact hwf
  | succ d ih =>
    intro t hwf
    obtain ⟨hms, hne, hch⟩ := hwf
    have hlen : 0 < t.1.length := List.length_pos.mpr hne
    obtain ⟨-, c0, hc0mem, hc0eq⟩ := childAt_mem d t.1 0 hlen
    obtain ⟨-, cl, hclmem, hcleq⟩ := childAt_mem d t.1 (t.1.length - 1)
      (by omega)
    obtain ⟨ihpb0, ihinc0, ihend0, ihdec0, ihbeg0, ihtend0⟩ :=
      (hc0eq ▸ ih c0.2 (hch c0 hc0mem) :)
    obtain ⟨ihpbl, ihincl, ihendl, ihdecl, ihbegl, ihtendl⟩ :=
      (hcleq ▸ ih cl.2 (hch cl hclmem) :)
    have hb : toBeginIt (d + 1) t =
        ⟨t, 0, false, toBeginIt d (childAt d t.1 0)⟩ := by
      simp [toBeginIt, sizeT, hms]
    have he : toEndIt (d + 1) t =
        ⟨t, t.1.length - 1, false,
          toEndIt d (childAt d t.1 (t.1.length - 1))⟩ := by
      simp [toEndIt, sizeT, hms]
    have hdecb : decIt (d + 1)
        (⟨t, 0, false, toBeginIt d (childAt d t.1 0)⟩ : ItSt (d + 1)) =
        ⟨t, 0, true, decIt d (toBeginIt d (childAt d t.1 0))⟩ := by
      simp [decIt, ihpb0, show ¬ (t.1.length ≤ 0) from by omega]
    have hince : incIt (d + 1)
        (⟨t, t.1.length - 1, false,
          toEndIt d (childAt d t.1 (t.1.length - 1))⟩ : ItSt (d + 1)) =
        ⟨t, t.1.length - 1 + 1, false,
          incIt d (toEndIt d (childAt d t.1 (t.1.length - 1)))⟩ := by
      simp [incIt, ihendl, show t.1.length ≤ t.1.length - 1 + 1 from by omega]
    rw [hb, he, hdecb, hince]
    refine ⟨?_, ?_, ?_, ?_, ?_, ?_⟩
    · simp [itPastBegin, sizeT, hms, ihpb0]
    · simp [incIt, ihinc0, ihbeg0]
    · simp [itEnd, sizeT, hms, ihendl]
      omega
    · have h1 : decIt (d + 1)
          (⟨t, t.1.length - 1 + 1, false,
            incIt d (toEndIt d (childAt d t.1 (t.1.length - 1)))⟩ :
              ItSt (d + 1)) =
          ⟨t, t.1.length - 1, false,
            toEndIt d (childAt d t.1 (t.1.length - 1))⟩ := by
        simp [decIt, ihdecl, ihtendl,
          show ¬ (t.1.length - 1 + 1 = 0) from by omega,
          show t.1.length ≤ t.1.length - 1 + 1 from by omega]
      rw [h1]
    · simp [itEnd, sizeT, hms, show ¬ (t.1.length ≤ 0) from by omega]
    · simp [itPastBegin, sizeT, hms]

/-- C4: on any non-empty built tree, `operator--` at the logical begin
position sets the past-begin sentinel, and `operator++` from that state
clears it and returns exactly to begin; symmetrically `operator++` at the
last element reaches `end()` and `operator--` returns exactly to the last
element.  Begin is never `end()` and the last position is never
`past_begin()`, so the oscillation happens strictly at the boundary. -/
theorem full_iterator_boundary_bounce (d : Nat)
    (ops : List (Bool × Int × Int × Keys d))
    (hne : sizeT d (buildT d ops) ≠ 0) :
    itPastBegin d (decIt d (toBeginIt d (buildT d ops))) = true ∧
    incIt d (decIt d (toBeginIt d (buildT d ops))) =
      toBeginIt d (buildT d ops) ∧
    itEnd d (incIt d (toEndIt d (buildT d ops))) = true ∧
    decIt d (incIt d (toEndIt d (buildT d ops))) =
      toEndIt d (buildT d ops) ∧
    itEnd d (toBeginIt d (buildT d ops)) = false ∧
    itPastBegin d (toEndIt d (buildT d ops)) = false := by
  rcases buildT_WFp d ops with hwf | heq
  · exact itBoundary d _ hwf
  · exact absurd (heq ▸ sizeT_empty d) hne

def boundaryOps : List (Bool × Int × Int × Keys 1) := [(true, 5, 7, (3, ()))]

theorem full_iterator_boundary_bounce_witness :
    sizeT 1 (buildT 1 boundaryOps) ≠ 0 ∧
    (itPastBegin 1 (decIt 1 (toBeginIt 1 (buildT 1 boundaryOps))) = true ∧
     incIt 1 (decIt 1 (toBeginIt 1 (buildT 1 boundaryOps))) =
       toBeginIt 1 (buildT 1 boundaryOps) ∧
     itEnd 1 (incIt 1 (toEndIt 1 (buildT 1 boundaryOps))) = true ∧
     decIt 1 (incIt 1 (toEndIt 1 (buildT 1 boundaryOps))) =
       toEndIt 1 (buildT 1 boundaryOps) ∧
     itEnd 1 (toBeginIt 1 (buildT 1 boundaryOps)) = false ∧
     itPastBegin 1 (toEndIt 1 (buildT 1 boundaryOps)) = false) :=
  ⟨by decide, full_iterator_boundary_bounce 1 boundaryOps (by decide)⟩

/-! ## Section 4: the range iterator (range_iterator.hpp)

`range_iterator_` keeps a possibly null tree pointer (`Option`), a level
cursor `m_it` with its index `m_it_idx`, the filtered bounds
`m_begin_idx`/`m_end_idx`, the `m_past_begin` flag and a subtree iterator.
The per-level search predicates `m_func` are set once by `set_functions`
and never change, so they are threaded as an explicit `Preds` argument
instead of a mutable field.  A vector iterator is a `Nat` index; the
comparison `m_it == m_tree->end()` is rendered as `length ≤ m_it`, which
agrees with the C++ on every state the code can reach.  Operations that
the C++ guards with `assert(m_tree != nullptr)` return the state
unchanged on a null pointer. -/

/-- The per-level search predicates handed to `set_functions`. -/
@[reducible] def Preds : Nat → Type
  | 0 => Unit
  | d + 1 => (Int → Bool) × Preds d

/-- State of the leaf `range_iterator_` (range_iterator.hpp lines
1010-1019): tree pointer, `m_it`, `m_past_begin`. -/
structure LeafRSt where
  tree : Option (List (Int × Int))
  it : Nat
  pb : Bool

/-- State of the internal-node `range_iterator_` (range_iterator.hpp lines
1450-1468): tree pointer, `m_it`/`m_it_idx`, `m_begin_idx`, `m_end_idx`,
`m_past_begin` and the subtree iterator. -/
structure NodeRSt (τ σ : Type) where
  tree : Option τ
  it : Nat
  itIdx : Nat
  beginIdx : Nat
  endIdx : Nat
  pb : Bool
  sub : σ

@[reducible] def RSt : Nat → Type
  | 0 => LeafRSt
  | d + 1 => NodeRSt (CT (d + 1)) (RSt d)

/-- `set_pointer(tree)` (range_iterator.hpp lines 858-861 and 1050-1053). -/
def setPointer : (d : Nat) → CT d → RSt d → RSt d
  | 0, t, s => { s with tree := some t }
  | _ + 1, t, s => { s with tree := some t }

/-- A default-constructed iterator: null tree pointer, `m_past_begin`
false; the index fields carry no C++ initializer and are taken as 0. -/
def freshR : (d : Nat) → RSt d
  | 0 => ⟨none, 0, false⟩
  | d + 1 => ⟨none, 0, 0, 0, 0, false, freshR d⟩

/-- Whether the tree pointer has been set (is non-null). -/
def treeSet : (d : Nat) → RSt d → Bool
  | 0, s => s.tree.isSome
  | _ + 1, s => s.tree.isSome

/-- `shallow_end()` (range_iterator.hpp lines 1366-1373):
`m_it == m_tree->end() or m_it_idx == m_end_idx`. -/
def shallowEndB {d : Nat} (t : CT (d + 1)) (s : RSt (d + 1)) : Bool :=
  decide (t.1.length ≤ s.it) || (s.itIdx == s.endIdx)

/-- `shallow_begin()` (range_iterator.hpp lines 1351-1359):
`not shallow_past_begin() and (m_it == m_tree->begin() or m_it_idx == m_begin_idx)`
(the tree pointer is known non-null at every call site). -/
def shallowBeginB {d : Nat} (_ : CT (d + 1)) (s : RSt (d + 1)) : Bool :=
  !s.pb && ((s.it == 0) || (s.itIdx == s.beginIdx))

/-- `end()` (range_iterator.hpp lines 983-986 and 1239-1245). -/
def endQ : (d : Nat) → RSt d → Bool
  | 0, s =>
    match s.tree with
    | none => true
    | some data => decide (data.length ≤ s.it)
  | d + 1, s =>
    match s.tree with
    | none => true
    | some t =>
      if numKeysT (d + 1) t = 0 then true
      else shallowEndB t s && endQ d s.sub

/-- `past_begin()` (range_iterator.hpp lines 974-977 and 1227-1233). -/
def pastBeginQ : (d : Nat) → RSt d → Bool
  | 0, s => s.tree.isNone || s.pb
  | d + 1, s =>
    match s.tree with
    | none => true
    | some t =>
      if numKeysT (d + 1) t = 0 then true
      else s.pb && pastBeginQ d s.sub

/-- `begin()` (range_iterator.hpp lines 964-968 and 1215-1221). -/
def beginQ : (d : Nat) → RSt d → Bool
  | 0, s =>
    match s.tree with
    | none => false
    | some _ => !s.pb && (s.it == 0)
  | d + 1, s =>
    match s.tree with
    | none => false
    | some t =>
      if numKeysT (d + 1) t = 0 then false
      else shallowBeginB t s && beginQ d s.sub

/-- The elements selected by the predicates: the filtered flatten of the
tree.  A leaf contributes its data; an internal node concatenates the
selections of the children whose key satisfies the level's predicate. -/
def FF : (d : Nat) → Preds d → CT d → List (Int × Int)
  | 0, _, data => data
  | d + 1, p, t =>
    t.1.foldr (fun c acc => if p.1 c.1 then FF d p.2 c.2 ++ acc else acc) []

/-- `FF` restricted to a segment of an internal node's child list. -/
def FFL (d : Nat) (f : Int → Bool) (q : Preds d)
    (cs : List (Int × CT d)) : List (Int × Int) :=
  cs.foldr (fun c acc => if f c.1 then FF d q c.2 ++ acc else acc) []

/-- `next()` (range_iterator.hpp lines 1382-1403), with the subtree's
`set_pointer` + `to_begin` step passed as `cb`.  The outer `while (not
stop)` and the inner key-skipping `while` are merged into one recursion:
each pass either stops or advances `m_it`/`m_it_idx` by one. -/
def nextLoop (d : Nat) (cb : CT d → RSt d → RSt d × Bool) (f : Int → Bool)
    (t : CT (d + 1)) (s : RSt (d + 1)) : RSt (d + 1) × Bool :=
  if shallowEndB t s then (s, false)
  else
    let e := t.1.getD s.it (0, emptyCT d)
    if f e.1 then
      let r := cb e.2 s.sub
      if r.2 then ({ s with sub := r.1 }, true)
      else
        nextLoop d cb f t
          { s with it := s.it + 1, itIdx := s.itIdx + 1, sub := r.1 }
    else nextLoop d cb f t { s with it := s.it + 1, itIdx := s.itIdx + 1 }
termination_by t.1.length - s.it
decreasing_by
  all_goals
    simp only [shallowEndB, Bool.or_eq_true, decide_eq_true_eq, not_or] at *
    omega

/-- `simple_move_back()` (range_iterator.hpp lines 1406-1414). -/
def simpleMoveBack {d : Nat} (t : CT (d + 1)) (s : RSt (d + 1)) :
    RSt (d + 1) :=
  if shallowBeginB t s then { s with pb := true }
  else { s with it := s.it - 1, itIdx := s.itIdx - 1 }

/-- `previous()` (range_iterator.hpp lines 1423-1443), with the subtree's
`set_pointer` + `to_end` step passed as `ce`.  The merged loop mirrors
`next()` downwards; note the branch where a failed subtree `to_end`
followed by `simple_move_back` reaches the past-begin state: the source
sets `stop = shallow_past_begin()` and then returns `true`. -/
def prevLoop (d : Nat) (ce : CT d → RSt d → RSt d × Bool) (f : Int → Bool)
    (t : CT (d + 1)) (s : RSt (d + 1)) : RSt (d + 1) × Bool :=
  if s.pb then (s, false)
  else
    let e := t.1.getD s.it (0, emptyCT d)
    if f e.1 then
      let r := ce e.2 s.sub
      if r.2 then ({ s with sub := r.1 }, true)
      else
        let s1 := simpleMoveBack t { s with sub := r.1 }
        if s1.pb then (s1, true)
        else prevLoop d ce f t s1
    else prevLoop d ce f t (simpleMoveBack t s)
termination_by (if s.pb then 0 else s.it + 1)
decreasing_by
  all_goals
    simp only [simpleMoveBack, shallowBeginB, Bool.and_eq_true,
      Bool.not_eq_eq_eq_not, Bool.not_true, Bool.or_eq_true, beq_iff_eq] at *
  · split at *
    · simp_all
    · rename_i hsb
      simp only [Bool.not_eq_true] at *
      simp_all
      omega
  · split
    · simp_all
    · rename_i hsb
      simp_all
      omega

/-- `initialize_limits()` (range_iterator.hpp lines 1292-1329).  On
failure of `next()` the cursor is parked at `begin()` while `m_it_idx`
and both bounds are set to `num_keys()` and `m_past_begin` is raised. -/
def initLimits (d : Nat) (cb ce : CT d → RSt d → RSt d × Bool)
    (f : Int → Bool) (t : CT (d + 1)) (s : RSt (d + 1)) :
    RSt (d + 1) × Bool :=
  let s0 := { s with it := 0, itIdx := 0, endIdx := numKeysT (d + 1) t }
  let r1 := nextLoop d cb f t s0
  if r1.2 then
    let s2 := { r1.1 with
      beginIdx := r1.1.itIdx, pb := false,
      it := numKeysT (d + 1) t - 1, itIdx := numKeysT (d + 1) t - 1 }
    let r2 := prevLoop d ce f t s2
    let eadd := if r2.1.itIdx ≠ numKeysT (d + 1) t then 1 else 0
    ({ r2.1 with endIdx := r2.1.itIdx + eadd }, true)
  else
    ({ r1.1 with
      it := 0, itIdx := numKeysT (d + 1) t,
      beginIdx := numKeysT (d + 1) t, endIdx := numKeysT (d + 1) t,
      pb := true }, false)

mutual

/-- `to_begin()` (range_iterator.hpp lines 883-898 and 1074-1098). -/
def toBeginR : (d : Nat) → Preds d → RSt d → RSt d × Bool
  | 0, _, s =>
    match s.tree with
    | none => (s, false)
    | some data =>
      if numKeysT 0 data = 0 then
        ({ s with pb := true, it := data.length }, false)
      else ({ s with pb := false, it := 0 }, true)
  | d + 1, p, s =>
    match s.tree with
    | none => (s, false)
    | some t =>
      if numKeysT (d + 1) t = 0 then
        ({ s with pb := true, it := t.1.length, itIdx := 1 }, false)
      else
        let r := initLimits d
          (fun c su => toBeginR d p.2 (setPointer d c su))
          (fun c su => toEndR d p.2 (setPointer d c su)) p.1 t s
        if r.2 then
          let s2 := { r.1 with
            pb := false, it := r.1.beginIdx, itIdx := r.1.beginIdx }
          let rsub := toBeginR d p.2
            (setPointer d (t.1.getD s2.beginIdx (0, emptyCT d)).2 s2.sub)
          ({ s2 with sub := rsub.1 }, rsub.2)
        else (r.1, false)
termination_by d _ _ => d

/-- `to_end()` (range_iterator.hpp lines 905-921 and 1106-1131). -/
def toEndR : (d : Nat) → Preds d → RSt d → RSt d × Bool
  | 0, _, s =>
    match s.tree with
    | none => (s, false)
    | some data =>
      if numKeysT 0 data = 0 then
        ({ s with pb := true, it := data.length }, false)
      else ({ s with pb := false, it := data.length - 1 }, true)
  | d + 1, p, s =>
    match s.tree with
    | none => (s, false)
    | some t =>
      if numKeysT (d + 1) t = 0 then
        ({ s with pb := true, it := t.1.length, itIdx := 1 }, false)
      else
        let r := initLimits d
          (fun c su => toBeginR d p.2 (setPointer d c su))
          (fun c su => toEndR d p.2 (setPointer d c su)) p.1 t s
        if r.2 then
          ({ r.1 with
            pb := false, it := r.1.endIdx - 1, itIdx := r.1.endIdx - 1 },
            true)
        else (r.1, false)
termination_by d _ _ => d

end

/-- `operator++` (range_iterator.hpp lines 924-931 and 1134-1145). -/
def incR : (d : Nat) → Preds d → RSt d → RSt d
  | 0, _, s => if s.pb then { s with pb := false } else { s with it := s.it + 1 }
  | d + 1, p, s =>
    let s0 := { s with pb := false, sub := incR d p.2 s.sub }
    if endQ d s0.sub then
      let s1 := { s0 with it := s0.it + 1, itIdx := s0.itIdx + 1 }
      match s1.tree with
      | none => s1
      | some t =>
        if shallowEndB t s1 then s1
        else
          (nextLoop d (fun c su => toBeginR d p.2 (setPointer d c su)) p.1 t
            s1).1
    else s0

/-- The loop of `count()` (range_iterator.hpp lines 1193-1206), with the
subtree's `set_pointer` + `count` step passed as `cnt`. -/
def countLoop (d : Nat) (cnt : CT d → RSt d → RSt d × Nat) (f : Int → Bool)
    (t : CT (d + 1)) (s : RSt (d + 1)) (acc : Nat) : RSt (d + 1) × Nat :=
  if shallowEndB t s then (s, acc)
  else
    let e := t.1.getD s.it (0, emptyCT d)
    if f e.1 then
      let r := cnt e.2 s.sub
      countLoop d cnt f t
        { s with sub := r.1, it := s.it + 1, itIdx := s.itIdx + 1 }
        (acc + r.2)
    else countLoop d cnt f t { s with it := s.it + 1, itIdx := s.itIdx + 1 } acc
termination_by t.1.length - s.it
decreasing_by
  all_goals
    simp only [shallowEndB, Bool.or_eq_true, decide_eq_true_eq, not_or] at *
    omega

/-- `count()` (range_iterator.hpp lines 950-957 and 1182-1208).  The leaf
returns `m_tree->size()`; an internal node resets the cursor and both
bounds to the unfiltered range and folds the subtree counts of the
children whose key passes the predicate. -/
def countR : (d : Nat) → Preds d → RSt d → RSt d × Nat
  | 0, _, s =>
    match s.tree with
    | none => (s, 0)
    | some data => (s, sizeT 0 data)
  | d + 1, p, s =>
    match s.tree with
    | none => (s, 0)
    | some t =>
      let s0 := { s with
        it := 0, itIdx := 0, beginIdx := 0, endIdx := numKeysT (d + 1) t }
      countLoop d (fun c su => countR d p.2 (setPointer d c su)) p.1 t s0 0

/-- C9: on a range iterator whose tree pointer was never set, the
boundary queries are total and safe: `past_begin()` and `end()` return
true and `begin()` returns false, at the leaf level and at the
internal-node level alike, without touching the null pointer. -/
theorem range_null_queries_safe (d : Nat) (s : RSt d)
    (h : treeSet d s = false) :
    pastBeginQ d s = true ∧ endQ d s = true ∧ beginQ d s = false := by
  cases d with
  | zero =>
    cases htt : s.tree with
    | none => refine ⟨?_, ?_, ?_⟩ <;> simp [pastBeginQ, endQ, beginQ, htt]
    | some data => rw [treeSet, htt] at h; cases h
  | succ d =>
    cases htt : s.tree with
    | none => refine ⟨?_, ?_, ?_⟩ <;> simp [pastBeginQ, endQ, beginQ, htt]
    | some t => rw [treeSet, htt] at h; cases h

def nullRSt1 : RSt 1 := ⟨none, 3, 4, 5, 6, false, ⟨none, 2, false⟩⟩

theorem range_null_queries_safe_witness :
    treeSet 1 nullRSt1 = false ∧
    (pastBeginQ 1 nullRSt1 = true ∧ endQ 1 nullRSt1 = true ∧
     beginQ 1 nullRSt1 = false) :=
  ⟨rfl, range_null_queries_safe 1 nullRSt1 rfl⟩

theorem countLoop_state (d : Nat) (cnt : CT d → RSt d → RSt d × Nat)
    (f : Int → Bool) (t : CT (d + 1)) :
    ∀ (n : Nat) (s : RSt (d + 1)) (acc : Nat), t.1.length - s.it ≤ n →
    s.it = s.itIdx → s.endIdx = t.1.length → s.it ≤ t.1.length →
    (countLoop d cnt f t s acc).1.it = t.1.length ∧
    (countLoop d cnt f t s acc).1.itIdx = t.1.length ∧
    (countLoop d cnt f t s acc).1.beginIdx = s.beginIdx ∧
    (countLoop d cnt f t s acc).1.endIdx = s.endIdx ∧
    (countLoop d cnt f t s acc).1.tree = s.tree ∧
    (countLoop d cnt f t s acc).1.pb = s.pb := by
  intro n
  induction n with
  | zero =>
    intro s acc hn hsync hend hle
    have hit : s.it = t.1.length := by omega
    rw [countLoop]
    have hse : shallowEndB t s = true := by
      simp [shallowEndB]; omega
    rw [if_pos hse]
    exact ⟨hit, (by omega : s.itIdx = t.1.length), rfl, rfl, rfl, rfl⟩
  | succ n ih =>
    intro s acc hn hsync hend hle
    rw [countLoop]
    by_cases hse : shallowEndB t s = true
    · rw [if_pos hse]
      simp only [shallowEndB, Bool.or_eq_true, decide_eq_true_eq,
        beq_iff_eq] at hse
      have hit : s.it = t.1.length := by omega
      exact ⟨hit, (by omega : s.itIdx = t.1.length), rfl, rfl, rfl, rfl⟩
    · rw [if_neg hse]
      simp only [shallowEndB, Bool.or_eq_true, decide_eq_true_eq,
        beq_iff_eq, not_or] at hse
      dsimp only
      split
      · exact ih _ _ (by show t.1.length - (s.it + 1) ≤ n; omega)
          (by show s.it + 1 = s.itIdx + 1; omega) hend
          (by show s.it + 1 ≤ t.1.length; omega)
      · exact ih _ _ (by show t.1.length - (s.it + 1) ≤ n; omega)
          (by show s.it + 1 = s.itIdx + 1; omega) hend
          (by show s.it + 1 ≤ t.1.length; omega)

/-- C10: `count()` on an internal-level range iterator overwrites the
iteration state, whatever it was: the level cursor ends at
`num_keys()` (one past the last child), `m_begin_idx` and `m_end_idx`
are reset to the unfiltered bounds `0` and `num_keys()`, discarding any
bounds computed by `initialize_limits` and any cursor position set by
`to_begin()`/`to_end()`. -/
theorem count_overwrites_state (d : Nat) (p : Preds (d + 1))
    (s : RSt (d + 1)) (t : CT (d + 1)) (h : s.tree = some t) :
    (countR (d + 1) p s).1.it = numKeysT (d + 1) t ∧
    (countR (d + 1) p s).1.itIdx = numKeysT (d + 1) t ∧
    (countR (d + 1) p s).1.beginIdx = 0 ∧
    (countR (d + 1) p s).1.endIdx = numKeysT (d + 1) t ∧
    (countR (d + 1) p s).1.tree = some t ∧
    (countR (d + 1) p s).1.pb = s.pb := by
  have hcl := countLoop_state d
    (fun c su => countR d p.2 (setPointer d c su)) p.1 t
    (t.1.length)
    { s with it := 0, itIdx := 0, beginIdx := 0, endIdx := numKeysT (d + 1) t }
    0 (by show t.1.length - 0 ≤ t.1.length; omega) rfl
    (by show numKeysT (d + 1) t = t.1.length; rfl)
    (by show 0 ≤ t.1.length; omega)
  rw [h] at hcl
  rw [countR, h]
  simp only [numKeysT] at hcl ⊢
  exact hcl

def c10St : RSt 1 :=
  ⟨some ([(5, [(7, 8)]), (6, [(9, 10)])], 2), 1, 1, 1, 2, false,
    ⟨none, 0, false⟩⟩

theorem count_overwrites_state_witness :
    c10St.tree = some ([(5, [(7, 8)]), (6, [(9, 10)])], 2) ∧
    ((countR 1 (fun k => k == 5, ()) c10St).1.it =
       numKeysT 1 ([(5, [(7, 8)]), (6, [(9, 10)])], 2) ∧
     (countR 1 (fun k => k == 5, ()) c10St).1.itIdx =
       numKeysT 1 ([(5, [(7, 8)]), (6, [(9, 10)])], 2) ∧
     (countR 1 (fun k => k == 5, ()) c10St).1.beginIdx = 0 ∧
     (countR 1 (fun k => k == 5, ()) c10St).1.endIdx =
       numKeysT 1 ([(5, [(7, 8)]), (6, [(9, 10)])], 2) ∧
     (countR 1 (fun k => k == 5, ()) c10St).1.tree =
       some ([(5, [(7, 8)]), (6, [(9, 10)])], 2) ∧
     (countR 1 (fun k => k == 5, ()) c10St).1.pb = c10St.pb) :=
  ⟨rfl, count_overwrites_state 0 (fun k => k == 5, ()) c10St
    ([(5, [(7, 8)]), (6, [(9, 10)])], 2) rfl⟩

theorem FFL_cons (d : Nat) (f : Int → Bool) (q : Preds d)
    (c : Int × CT d) (cs : List (Int × CT d)) :
    FFL d f q (c :: cs) =
      (if f c.1 then FF d q c.2 else []) ++ FFL d f q cs := by
  unfold FFL
  rw [List.foldr_cons]
  by_cases h : f c.1 = true
  · rw [if_pos h, if_pos h]
  · rw [if_neg h, if_neg h, List.nil_append]

theorem FF_eq_FFL (d : Nat) (p : Preds (d + 1)) (t : CT (d + 1)) :
    FF (d + 1) p t = FFL d p.1 p.2 t.1 := rfl

theorem FFL_eq_nil_iff (d : Nat) (f : Int → Bool) (q : Preds d)
    (cs : List (Int × CT d)) :
    FFL d f q cs = [] ↔
      ∀ c ∈ cs, f c.1 = true → FF d q c.2 = [] := by
  induction cs with
  | nil => simp [FFL]
  | cons c cs ih =>
    rw [FFL_cons, List.append_eq_nil, ih]
    constructor
    · rintro ⟨h1, h2⟩ x hx hfx
      rcases List.mem_cons.mp hx with rfl | hx'
      · by_cases hc : f x.1 = true
        · rw [if_pos hc] at h1; exact h1
        · exact absurd hfx hc
      · exact h2 x hx' hfx
    · intro h
      refine ⟨?_, fun x hx hfx => h x (List.mem_cons_of_mem _ hx) hfx⟩
      by_cases hc : f c.1 = true
      · rw [if_pos hc]; exact h c (List.mem_cons_self _ _) hc
      · rw [if_neg hc]

theorem drop_getD {α : Type} (cs : List α) (i : Nat) (dflt : α)
    (h : i < cs.length) :
    cs.drop i = cs.getD i dflt :: cs.drop (i + 1) := by
  rw [List.drop_eq_getElem_cons h, List.getD_eq_getElem cs dflt h]

theorem FFL_drop_succ (d : Nat) (f : Int → Bool) (q : Preds d)
    (cs : List (Int × CT d)) (i : Nat) (h : i < cs.length) :
    FFL d f q (cs.drop i) =
      (if f (cs.getD i (0, emptyCT d)).1 = true
        then FF d q (cs.getD i (0, emptyCT d)).2 else []) ++
      FFL d f q (cs.drop (i + 1)) := by
  rw [drop_getD cs i (0, emptyCT d) h, FFL_cons]

/-- Every strict sub-level of the iterator answers `end()` true. -/
def EndChain : (d : Nat) → RSt d → Prop
  | 0, _ => True
  | d + 1, s => endQ d s.sub = true ∧ EndChain d s.sub

/-- Every strict sub-level of the iterator answers `past_begin()` true. -/
def PBChain : (d : Nat) → RSt d → Prop
  | 0, _ => True
  | d + 1, s => pastBeginQ d s.sub = true ∧ PBChain d s.sub

theorem endQ_fresh (d : Nat) : endQ d (freshR d) = true := by
  cases d <;> rfl

theorem pastBeginQ_fresh (d : Nat) : pastBeginQ d (freshR d) = true := by
  cases d <;> rfl

theorem endChain_fresh (d : Nat) : EndChain d (freshR d) := by
  induction d with
  | zero => trivial
  | succ d ih => exact ⟨endQ_fresh d, ih⟩

theorem pbChain_fresh (d : Nat) : PBChain d (freshR d) := by
  induction d with
  | zero => trivial
  | succ d ih => exact ⟨pastBeginQ_fresh d, ih⟩

theorem endChain_setPointer (d : Nat) (c : CT d) (s : RSt d) :
    EndChain d (setPointer d c s) ↔ EndChain d s := by
  cases d <;> rfl

theorem pbChain_setPointer (d : Nat) (c : CT d) (s : RSt d) :
    PBChain d (setPointer d c s) ↔ PBChain d s := by
  cases d <;> rfl

/-- The abstraction relation for the count/iterate equivalence: the
iterator `s` is either positioned mid-iteration with exactly `L` still to
be visited (the current element included), or exhausted with `L = []`.
At an internal level the remaining list splits as the subtree iterator's
remainder followed by the selections of the still unvisited children;
no child at or beyond `m_end_idx` contributes. -/
def RepI : (d : Nat) → Preds d → RSt d → List (Int × Int) → Prop
  | 0, _, s, L =>
    ∃ data, s.tree = some data ∧ s.pb = false ∧ s.it ≤ data.length ∧
      L = data.drop s.it
  | d + 1, p, s, L =>
    ∃ t, s.tree = some t ∧ s.pb = false ∧ s.it = s.itIdx ∧
      s.endIdx ≤ t.1.length ∧ FFL d p.1 p.2 (t.1.drop s.endIdx) = [] ∧
      ((∃ Lsub, RepI d p.2 s.sub Lsub ∧ Lsub ≠ [] ∧ s.it < s.endIdx ∧
          L = Lsub ++ FFL d p.1 p.2 (t.1.drop (s.it + 1))) ∨
        (s.it = s.endIdx ∧ endQ d s.sub = true ∧ EndChain d s.sub ∧
          L = []))

/-- `RSteps d p s n`: starting at `s`, `operator++` can be applied exactly
`n` times before `end()` becomes true. -/
inductive RSteps (d : Nat) (p : Preds d) : RSt d → Nat → Prop where
  | done : ∀ s, endQ d s = true → RSteps d p s 0
  | step : ∀ s n, endQ d s = false → RSteps d p (incR d p s) n →
      RSteps d p s (n + 1)

theorem rsteps_unique (d : Nat) (p : Preds d) :
    ∀ (s : RSt d) (n m : Nat), RSteps d p s n → RSteps d p s m → n = m := by
  intro s n
  induction n generalizing s with
  | zero =>
    intro m h1 h2
    cases h2 with
    | done _ _ => rfl
    | step _ m' he _ =>
      cases h1 with
      | done _ he' => rw [he'] at he; cases he
  | succ n ih =>
    intro m h1 h2
    cases h1 with
    | step _ _ he h1' =>
      cases h2 with
      | done _ he' => rw [he'] at he; cases he
      | step _ m' _ h2' => rw [ih _ _ h1' h2']

theorem nextLoop_spec (d : Nat) (q : Preds d) (f : Int → Bool)
    (t : CT (d + 1)) (cb : CT d → RSt d → RSt d × Bool)
    (hcb1 : ∀ c su, FF d q c ≠ [] →
      (cb c su).2 = true ∧ RepI d q (cb c su).1 (FF d q c))
    (hcb2 : ∀ c su, FF d q c = [] → (cb c su).2 = false)
    (hcb3 : ∀ c su, FF d q c = [] → EndChain d su →
      endQ d (cb c su).1 = true ∧ EndChain d (cb c su).1)
    (hcb4 : ∀ c su, FF d q c = [] → PBChain d su →
      pastBeginQ d (cb c su).1 = true ∧ PBChain d (cb c su).1) :
    ∀ (n : Nat) (s : RSt (d + 1)), s.endIdx - s.it ≤ n →
    s.it = s.itIdx → s.it ≤ s.endIdx → s.endIdx ≤ t.1.length →
    FFL d f q (t.1.drop s.endIdx) = [] →
    ((FFL d f q (t.1.drop s.it) ≠ [] →
      ∃ j R, s.it ≤ j ∧ j < s.endIdx ∧
        nextLoop d cb f t s =
          ({ s with it := j, itIdx := j, sub := R }, true) ∧
        f ((t.1.getD j (0, emptyCT d)).1) = true ∧
        FF d q ((t.1.getD j (0, emptyCT d)).2) ≠ [] ∧
        RepI d q R (FF d q ((t.1.getD j (0, emptyCT d)).2)) ∧
        FFL d f q (t.1.drop s.it) =
          FF d q ((t.1.getD j (0, emptyCT d)).2) ++
            FFL d f q (t.1.drop (j + 1))) ∧
     (FFL d f q (t.1.drop s.it) = [] →
      ∃ S, nextLoop d cb f t s =
          ({ s with it := s.endIdx, itIdx := s.endIdx, sub := S }, false) ∧
        (endQ d s.sub = true → EndChain d s.sub →
          endQ d S = true ∧ EndChain d S) ∧
        (pastBeginQ d s.sub = true → PBChain d s.sub →
          pastBeginQ d S = true ∧ PBChain d S))) := by
  intro n
  induction n with
  | zero =>
    rintro ⟨tr, sit, sidx, sbi, sei, spb, ssub⟩ hn hsync hle hEl hnc
    dsimp only at *
    subst hsync
    have hit : sit = sei := by omega
    subst hit
    constructor
    · intro hne
      exact absurd hnc hne
    · intro _
      refine ⟨ssub, ?_, fun h1 h2 => ⟨h1, h2⟩, fun h1 h2 => ⟨h1, h2⟩⟩
      rw [nextLoop]
      have hse : shallowEndB t (⟨tr, sit, sit, sbi, sit, spb, ssub⟩ :
          RSt (d + 1)) = true := by
        simp [shallowEndB]
      rw [if_pos hse]
  | succ n ih =>
    rintro ⟨tr, sit, sidx, sbi, sei, spb, ssub⟩ hn hsync hle hEl hnc
    dsimp only at *
    subst hsync
    by_cases hits : sit = sei
    · subst hits
      constructor
      · intro hne
        exact absurd hnc hne
      · intro _
        refine ⟨ssub, ?_, fun h1 h2 => ⟨h1, h2⟩, fun h1 h2 => ⟨h1, h2⟩⟩
        rw [nextLoop]
        have hse : shallowEndB t (⟨tr, sit, sit, sbi, sit, spb, ssub⟩ :
            RSt (d + 1)) = true := by
          simp [shallowEndB]
        rw [if_pos hse]
    · have hlt : sit < sei := by omega
      have hltlen : sit < t.1.length := by omega
      have hse : shallowEndB t (⟨tr, sit, sit, sbi, sei, spb, ssub⟩ :
          RSt (d + 1)) = false := by
        simp [shallowEndB]
        omega
      have hsplit := FFL_drop_succ d f q t.1 sit hltlen
      by_cases hf : f ((t.1.getD sit (0, emptyCT d)).1) = true
      · by_cases hFFc : FF d q ((t.1.getD sit (0, emptyCT d)).2) = []
        · -- matching key, but the child selects nothing: to_begin fails
          have hr2 := hcb2 _ ssub hFFc
          have hih := ih ⟨tr, sit + 1, sit + 1, sbi, sei, spb,
            (cb (t.1.getD sit (0, emptyCT d)).2 ssub).1⟩
            (by dsimp only; omega) rfl (by dsimp only; omega)
            (by dsimp only; omega) (by dsimp only; exact hnc)
          dsimp only at hih
          rw [if_pos hf, hFFc] at hsplit
          rw [List.nil_append] at hsplit
          have hunf : nextLoop d cb f t ⟨tr, sit, sit, sbi, sei, spb, ssub⟩ =
              nextLoop d cb f t ⟨tr, sit + 1, sit + 1, sbi, sei, spb,
                (cb (t.1.getD sit (0, emptyCT d)).2 ssub).1⟩ := by
            rw [nextLoop, if_neg (by rw [hse]; exact Bool.false_ne_true)]
            dsimp only
            rw [if_pos hf, if_neg (by rw [hr2]; exact Bool.false_ne_true)]
          constructor
          · intro hne
            rw [hsplit] at hne
            obtain ⟨j, R, hj1, hj2, heq, hfj, hFFj, hRep, hdec⟩ :=
              hih.1 hne
            refine ⟨j, R, by omega, hj2, ?_, hfj, hFFj, hRep, ?_⟩
            · rw [hunf, heq]
            · rw [hsplit, hdec]
          · intro hnil
            rw [hsplit] at hnil
            obtain ⟨S, heq, hch1, hch2⟩ := hih.2 hnil
            refine ⟨S, by rw [hunf, heq], ?_, ?_⟩
            · intro h1 h2
              have hc := hcb3 _ ssub hFFc h2
              exact hch1 hc.1 hc.2
            · intro h1 h2
              have hc := hcb4 _ ssub hFFc h2
              exact hch2 hc.1 hc.2
        · -- matching key and nonempty child selection: to_begin succeeds
          have hr := hcb1 _ ssub hFFc
          rw [if_pos hf] at hsplit
          constructor
          · intro hne
            refine ⟨sit, (cb (t.1.getD sit (0, emptyCT d)).2 ssub).1,
              le_refl _, hlt, ?_, hf, hFFc, hr.2, hsplit⟩
            rw [nextLoop, if_neg (by rw [hse]; exact Bool.false_ne_true)]
            dsimp only
            rw [if_pos hf, if_pos hr.1]
          · intro hnil
            rw [hsplit] at hnil
            exact absurd (List.append_eq_nil.mp hnil).1 hFFc
      · -- key skipped by the predicate
        have hih := ih ⟨tr, sit + 1, sit + 1, sbi, sei, spb, ssub⟩
          (by dsimp only; omega) rfl (by dsimp only; omega)
          (by dsimp only; omega) (by dsimp only; exact hnc)
        dsimp only at hih
        rw [if_neg hf] at hsplit
        rw [List.nil_append] at hsplit
        have hunf : nextLoop d cb f t ⟨tr, sit, sit, sbi, sei, spb, ssub⟩ =
            nextLoop d cb f t ⟨tr, sit + 1, sit + 1, sbi, sei, spb, ssub⟩ := by
          rw [nextLoop, if_neg (by rw [hse]; exact Bool.false_ne_true)]
          dsimp only
          rw [if_neg hf]
        constructor
        · intro hne
          rw [hsplit] at hne
          obtain ⟨j, R, hj1, hj2, heq, hfj, hFFj, hRep, hdec⟩ := hih.1 hne
          refine ⟨j, R, by omega, hj2, ?_, hfj, hFFj, hRep, ?_⟩
          · rw [hunf, heq]
          · rw [hsplit, hdec]
        · intro hnil
          rw [hsplit] at hnil
          obtain ⟨S, heq, hch1, hch2⟩ := hih.2 hnil
          exact ⟨S, by rw [hunf, heq], hch1, hch2⟩

theorem prevLoop_spec (d : Nat) (q : Preds d) (f : Int → Bool)
    (t : CT (d + 1)) (ce : CT d → RSt d → RSt d × Bool)
    (hce : ∀ c su, ((ce c su).2 = true ↔ FF d q c ≠ [])) :
    ∀ (n : Nat) (s : RSt (d + 1)) (jL : Nat), s.it ≤ n →
    s.it = s.itIdx → s.pb = false → s.it < t.1.length →
    s.beginIdx ≤ jL → jL ≤ s.it →
    f ((t.1.getD jL (0, emptyCT d)).1) = true →
    FF d q ((t.1.getD jL (0, emptyCT d)).2) ≠ [] →
    (∀ i, jL < i → i ≤ s.it →
      ¬(f ((t.1.getD i (0, emptyCT d)).1) = true ∧
        FF d q ((t.1.getD i (0, emptyCT d)).2) ≠ [])) →
    ∃ S, prevLoop d ce f t s =
      ({ s with it := jL, itIdx := jL, sub := S }, true) := by
  intro n
  induction n with
  | zero =>
    rintro ⟨tr, sit, sidx, sbi, sei, spb, ssub⟩ jL hn hsync hpb hltlen hbi
      hjle hfj hFFj hni
    dsimp only at *
    subst hsync
    subst hpb
    have hj : jL = sit := by omega
    subst hj
    have hret : (ce ((t.1.getD jL (0, emptyCT d)).2) ssub).2 = true :=
      (hce _ _).mpr hFFj
    refine ⟨(ce ((t.1.getD jL (0, emptyCT d)).2) ssub).1, ?_⟩
    rw [prevLoop, if_neg Bool.false_ne_true]
    dsimp only
    rw [if_pos hfj, if_pos hret]
  | succ n ih =>
    rintro ⟨tr, sit, sidx, sbi, sei, spb, ssub⟩ jL hn hsync hpb hltlen hbi
      hjle hfj hFFj hni
    dsimp only at *
    subst hsync
    subst hpb
    by_cases hits : jL = sit
    · subst hits
      have hret : (ce ((t.1.getD jL (0, emptyCT d)).2) ssub).2 = true :=
        (hce _ _).mpr hFFj
      refine ⟨(ce ((t.1.getD jL (0, emptyCT d)).2) ssub).1, ?_⟩
      rw [prevLoop, if_neg Bool.false_ne_true]
      dsimp only
      rw [if_pos hfj, if_pos hret]
    · have hjlt : jL < sit := by omega
      have hsbF : ∀ (su : RSt d),
          shallowBeginB t (⟨tr, sit, sit, sbi, sei, false, su⟩ :
            RSt (d + 1)) = false := by
        intro su
        simp [shallowBeginB]
        omega
      have hsmb : ∀ (su : RSt d),
          simpleMoveBack t (⟨tr, sit, sit, sbi, sei, false, su⟩ :
            RSt (d + 1)) = ⟨tr, sit - 1, sit - 1, sbi, sei, false, su⟩ := by
        intro su
        rw [simpleMoveBack, if_neg (by rw [hsbF]; exact Bool.false_ne_true)]
      have hnc := hni sit hjlt (le_refl _)
      by_cases hf : f ((t.1.getD sit (0, emptyCT d)).1) = true
      · have hFFc : FF d q ((t.1.getD sit (0, emptyCT d)).2) = [] := by
          by_contra hcon
          exact hnc ⟨hf, hcon⟩
        have hr2 : (ce ((t.1.getD sit (0, emptyCT d)).2) ssub).2 = false := by
          cases hrr : (ce ((t.1.getD sit (0, emptyCT d)).2) ssub).2 with
          | false => rfl
          | true => exact absurd ((hce _ _).mp hrr) (by simpa using hFFc)
        obtain ⟨S, heq⟩ := ih ⟨tr, sit - 1, sit - 1, sbi, sei, false,
            (ce ((t.1.getD sit (0, emptyCT d)).2) ssub).1⟩ jL
          (by dsimp only; omega) rfl rfl (by dsimp only; omega)
          hbi (by dsimp only; omega) hfj hFFj
          (by
            intro i hi1 hi2
            dsimp only at hi2
            exact hni i hi1 (by omega))
        dsimp only at heq
        refine ⟨S, ?_⟩
        rw [prevLoop, if_neg Bool.false_ne_true]
        dsimp only
        rw [if_pos hf, if_neg (by rw [hr2]; exact Bool.false_ne_true)]
        rw [hsmb]
        dsimp only
        rw [if_neg Bool.false_ne_true]
        exact heq
      · obtain ⟨S, heq⟩ := ih ⟨tr, sit - 1, sit - 1, sbi, sei, false,
            ssub⟩ jL
          (by dsimp only; omega) rfl rfl (by dsimp only; omega)
          hbi (by dsimp only; omega) hfj hFFj
          (by
            intro i hi1 hi2
            dsimp only at hi2
            exact hni i hi1 (by omega))
        dsimp only at heq
        refine ⟨S, ?_⟩
        rw [prevLoop, if_neg Bool.false_ne_true]
        dsimp only
        rw [if_neg hf]
        rw [hsmb]
        exact heq

theorem exists_max_contrib (d : Nat) (f : Int → Bool) (q : Preds d)
    (cs : List (Int × CT d)) (h : FFL d f q cs ≠ []) :
    ∃ jL, jL < cs.length ∧ f (cs.getD jL (0, emptyCT d)).1 = true ∧
      FF d q (cs.getD jL (0, emptyCT d)).2 ≠ [] ∧
      ∀ i, jL < i → i < cs.length →
        ¬(f (cs.getD i (0, emptyCT d)).1 = true ∧
          FF d q (cs.getD i (0, emptyCT d)).2 ≠ []) := by
  have hx : ∃ c ∈ cs, f c.1 = true ∧ FF d q c.2 ≠ [] := by
    by_contra hcon
    push_neg at hcon
    exact h ((FFL_eq_nil_iff d f q cs).mpr
      (fun c hc hfc => by
        by_contra hne
        exact absurd hfc (by simpa [hne] using hcon c hc)))
  obtain ⟨c, hc, hfc, hFFc⟩ := hx
  obtain ⟨m, hm, hcm⟩ := List.mem_iff_getElem.mp hc
  have hPm : f (cs.getD m (0, emptyCT d)).1 = true ∧
      FF d q (cs.getD m (0, emptyCT d)).2 ≠ [] := by
    rw [List.getD_eq_getElem cs _ hm, hcm]
    exact ⟨hfc, hFFc⟩
  classical
  set P : Nat → Prop := fun i => f (cs.getD i (0, emptyCT d)).1 = true ∧
    FF d q (cs.getD i (0, emptyCT d)).2 ≠ [] with hP
  have hfin : P (Nat.findGreatest P (cs.length - 1)) :=
    Nat.findGreatest_spec (m := m) (by omega) hPm
  refine ⟨Nat.findGreatest P (cs.length - 1), ?_, hfin.1, hfin.2, ?_⟩
  · have := Nat.findGreatest_le (P := P) (n := cs.length - 1)
    omega
  · intro i hi1 hi2 hPi
    exact Nat.findGreatest_is_greatest hi1 (by omega) hPi

theorem initLimits_spec (d : Nat) (q : Preds d) (f : Int → Bool)
    (t : CT (d + 1)) (cb ce : CT d → RSt d → RSt d × Bool)
    (hcb1 : ∀ c su, FF d q c ≠ [] →
      (cb c su).2 = true ∧ RepI d q (cb c su).1 (FF d q c))
    (hcb2 : ∀ c su, FF d q c = [] → (cb c su).2 = false)
    (hcb3 : ∀ c su, FF d q c = [] → EndChain d su →
      endQ d (cb c su).1 = true ∧ EndChain d (cb c su).1)
    (hcb4 : ∀ c su, FF d q c = [] → PBChain d su →
      pastBeginQ d (cb c su).1 = true ∧ PBChain d (cb c su).1)
    (hce : ∀ c su, ((ce c su).2 = true ↔ FF d q c ≠ [])) :
    ∀ (s : RSt (d + 1)),
    ((FFL d f q t.1 ≠ [] →
      ∃ j₀ jL S,
        j₀ ≤ jL ∧ jL < t.1.length ∧
        f ((t.1.getD j₀ (0, emptyCT d)).1) = true ∧
        FF d q ((t.1.getD j₀ (0, emptyCT d)).2) ≠ [] ∧
        FFL d f q t.1 =
          FF d q ((t.1.getD j₀ (0, emptyCT d)).2) ++
            FFL d f q (t.1.drop (j₀ + 1)) ∧
        FFL d f q (t.1.drop (jL + 1)) = [] ∧
        initLimits d cb ce f t s =
          ({ s with it := jL, itIdx := jL, beginIdx := j₀, endIdx := jL + 1, pb := false, sub := S }, true)) ∧
     (FFL d f q t.1 = [] →
      ∃ S,
        initLimits d cb ce f t s =
          ({ s with it := 0, itIdx := t.1.length, beginIdx := t.1.length, endIdx := t.1.length, pb := true, sub := S }, false) ∧
        (endQ d s.sub = true → EndChain d s.sub →
          endQ d S = true ∧ EndChain d S) ∧
        (pastBeginQ d s.sub = true → PBChain d s.sub →
          pastBeginQ d S = true ∧ PBChain d S))) := by
  rintro ⟨tr, sit, sidx, sbi, sei, spb, ssub⟩
  have hNS := nextLoop_spec d q f t cb hcb1 hcb2 hcb3 hcb4 t.1.length
    ⟨tr, 0, 0, sbi, t.1.length, spb, ssub⟩
    (by dsimp only; omega) rfl (by dsimp only; omega)
    (by dsimp only; omega)
    (by dsimp only; rw [List.drop_length]; rfl)
  dsimp only at hNS
  rw [List.drop_zero] at hNS
  constructor
  · intro hne
    obtain ⟨j, R, _, hjlt, heq1, hfj, hFFj, _, hdec⟩ := hNS.1 hne
    obtain ⟨jL, hjLlt, hfjL, hFFjL, hmax⟩ := exists_max_contrib d f q t.1 hne
    have hjle : j ≤ jL := by
      by_contra hcon
      exact hmax j (by omega) (by omega) ⟨hfj, hFFj⟩
    have hlen : 0 < t.1.length := by omega
    obtain ⟨S, heq2⟩ := prevLoop_spec d q f t ce hce (t.1.length - 1)
      ⟨tr, t.1.length - 1, t.1.length - 1, j, t.1.length, false, R⟩ jL
      (by dsimp only; omega) rfl rfl (by dsimp only; omega)
      (by dsimp only; omega) (by dsimp only; omega) hfjL hFFjL
      (by
        intro i hi1 hi2
        dsimp only at hi2
        exact hmax i hi1 (by omega))
    dsimp only at heq2
    have hdropjL : FFL d f q (t.1.drop (jL + 1)) = [] := by
      rw [FFL_eq_nil_iff]
      intro c hcmem hfc
      obtain ⟨m, hm, hcm⟩ := List.mem_iff_getElem.mp hcmem
      rw [List.length_drop] at hm
      have hb : jL + 1 + m < t.1.length := by omega
      have hgd : (t.1.drop (jL + 1))[m] = t.1[jL + 1 + m] :=
        List.getElem_drop t.1
      by_contra hFFne
      refine hmax (jL + 1 + m) (by omega) (by omega) ?_
      rw [List.getD_eq_getElem t.1 _ (by omega : jL + 1 + m < t.1.length)]
      rw [← hgd, hcm]
      exact ⟨hfc, hFFne⟩
    refine ⟨j, jL, S, hjle, hjLlt, hfj, hFFj, hdec, hdropjL, ?_⟩
    rw [initLimits]
    simp only [numKeysT]
    simp only [heq1]
    rw [if_pos trivial]
    simp only [heq2]
    rw [if_pos (by omega : jL ≠ t.1.length)]
  · intro hnil
    obtain ⟨S, heq1, hch1, hch2⟩ := hNS.2 hnil
    refine ⟨S, ?_, hch1, hch2⟩
    rw [initLimits]
    simp only [numKeysT]
    simp only [heq1]
    rw [if_neg Bool.false_ne_true]

theorem setPointer_node (d : Nat) (c : CT (d + 1)) (s : RSt (d + 1)) :
    setPointer (d + 1) c s = { s with tree := some c } := rfl

theorem toBE_spec : ∀ (d : Nat),
    (∀ (p : Preds d) (c : CT d) (su : RSt d), FF d p c ≠ [] →
      (toBeginR d p (setPointer d c su)).2 = true ∧
      RepI d p (toBeginR d p (setPointer d c su)).1 (FF d p c)) ∧
    (∀ (p : Preds d) (c : CT d) (su : RSt d), FF d p c = [] →
      (toBeginR d p (setPointer d c su)).2 = false) ∧
    (∀ (p : Preds d) (c : CT d) (su : RSt d), FF d p c = [] →
      EndChain d su →
      endQ d (toBeginR d p (setPointer d c su)).1 = true ∧
      EndChain d (toBeginR d p (setPointer d c su)).1) ∧
    (∀ (p : Preds d) (c : CT d) (su : RSt d), FF d p c = [] →
      PBChain d su →
      pastBeginQ d (toBeginR d p (setPointer d c su)).1 = true ∧
      PBChain d (toBeginR d p (setPointer d c su)).1) ∧
    (∀ (p : Preds d) (c : CT d) (su : RSt d),
      ((toEndR d p (setPointer d c su)).2 = true ↔ FF d p c ≠ [])) := by
  intro d
  induction d with
  | zero =>
    refine ⟨?_, ?_, ?_, ?_, ?_⟩
    · rintro p c ⟨str, sit, spb⟩ hne
      have hl : ¬(numKeysT 0 c = 0) := by
        simp only [numKeysT]
        exact fun h => hne (List.length_eq_zero.mp h)
      simp only [setPointer, toBeginR]
      rw [if_neg hl]
      exact ⟨rfl, c, rfl, rfl, Nat.zero_le c.length, (List.drop_zero c).symm⟩
    · rintro p c ⟨str, sit, spb⟩ hnil
      have hc : c = [] := hnil
      have hl : numKeysT 0 c = 0 := by rw [numKeysT, hc]; rfl
      simp only [setPointer, toBeginR]
      rw [if_pos hl]
    · rintro p c ⟨str, sit, spb⟩ hnil hEC
      have hc : c = [] := hnil
      have hl : numKeysT 0 c = 0 := by rw [numKeysT, hc]; rfl
      simp only [setPointer, toBeginR]
      rw [if_pos hl]
      refine ⟨?_, trivial⟩
      simp only [numKeysT] at hl
      simp [endQ, hl]
    · rintro p c ⟨str, sit, spb⟩ hnil hPB
      have hc : c = [] := hnil
      have hl : numKeysT 0 c = 0 := by rw [numKeysT, hc]; rfl
      simp only [setPointer, toBeginR]
      rw [if_pos hl]
      exact ⟨by simp [pastBeginQ], trivial⟩
    · rintro p c ⟨str, sit, spb⟩
      simp only [setPointer, toEndR]
      by_cases hl : numKeysT 0 c = 0
      · rw [if_pos hl]
        simp only [numKeysT] at hl
        simp [FF, List.length_eq_zero.mp hl]
      · rw [if_neg hl]
        simp only [numKeysT] at hl
        simp only [FF]
        constructor
        · intro _
          exact fun h => hl (by rw [h]; rfl)
        · intro _
          trivial
  | succ d ih =>
    obtain ⟨ih1, ih2, ih3, ih4, ih5⟩ := ih
    constructor
    · rintro p c ⟨str, sit, sidx, sbi, sei, spb, ssub⟩ hne
      have hne' : FFL d p.1 p.2 c.1 ≠ [] := by
        rw [← FF_eq_FFL]; exact hne
      have hl : ¬(numKeysT (d + 1) c = 0) := by
        simp only [numKeysT]
        intro h
        rw [List.length_eq_zero.mp h] at hne'
        exact hne' rfl
      obtain ⟨j₀, jL, S, hjle, hjLlt, hfj, hFFj, hdec, hdropjL, heqIL⟩ :=
        (initLimits_spec d p.2 p.1 c
          (fun c su => toBeginR d p.2 (setPointer d c su))
          (fun c su => toEndR d p.2 (setPointer d c su))
          (ih1 p.2) (ih2 p.2) (ih3 p.2) (ih4 p.2) (ih5 p.2)
          ⟨some c, sit, sidx, sbi, sei, spb, ssub⟩).1 hne'
      dsimp only at heqIL
      have hsub := ih1 p.2 ((c.1.getD j₀ (0, emptyCT d)).2) S hFFj
      rw [setPointer_node]
      dsimp only
      simp only [toBeginR]
      rw [if_neg hl]
      simp only [heqIL]
      rw [if_pos trivial]
      dsimp only
      refine ⟨hsub.1, ?_⟩
      refine ⟨c, rfl, rfl, rfl, (by show jL + 1 ≤ c.1.length; omega), ?_,
        Or.inl ⟨FF d p.2 ((c.1.getD j₀ (0, emptyCT d)).2), hsub.2, hFFj,
          (by show j₀ < jL + 1; omega), ?_⟩⟩
      · exact hdropjL
      · rw [FF_eq_FFL]
        exact hdec
    constructor
    · rintro p c ⟨str, sit, sidx, sbi, sei, spb, ssub⟩ hnil
      have hnil' : FFL d p.1 p.2 c.1 = [] := by
        rw [← FF_eq_FFL]; exact hnil
      rw [setPointer_node]
      dsimp only
      simp only [toBeginR]
      by_cases hl : numKeysT (d + 1) c = 0
      · rw [if_pos hl]
      · rw [if_neg hl]
        obtain ⟨S, heqIL, hch1, hch2⟩ :=
          (initLimits_spec d p.2 p.1 c
            (fun c su => toBeginR d p.2 (setPointer d c su))
            (fun c su => toEndR d p.2 (setPointer d c su))
            (ih1 p.2) (ih2 p.2) (ih3 p.2) (ih4 p.2) (ih5 p.2)
            ⟨some c, sit, sidx, sbi, sei, spb, ssub⟩).2 hnil'
        dsimp only at heqIL
        simp only [heqIL]
        rw [if_neg Bool.false_ne_true]
    constructor
    · rintro p c ⟨str, sit, sidx, sbi, sei, spb, ssub⟩ hnil hEC
      obtain ⟨hECq, hECc⟩ : endQ d ssub = true ∧ EndChain d ssub := hEC
      have hnil' : FFL d p.1 p.2 c.1 = [] := by
        rw [← FF_eq_FFL]; exact hnil
      rw [setPointer_node]
      dsimp only
      simp only [toBeginR]
      by_cases hl : numKeysT (d + 1) c = 0
      · rw [if_pos hl]
        refine ⟨?_, hECq, hECc⟩
        simp [endQ, hl]
      · rw [if_neg hl]
        obtain ⟨S, heqIL, hch1, hch2⟩ :=
          (initLimits_spec d p.2 p.1 c
            (fun c su => toBeginR d p.2 (setPointer d c su))
            (fun c su => toEndR d p.2 (setPointer d c su))
            (ih1 p.2) (ih2 p.2) (ih3 p.2) (ih4 p.2) (ih5 p.2)
            ⟨some c, sit, sidx, sbi, sei, spb, ssub⟩).2 hnil'
        dsimp only at heqIL
        obtain ⟨hSq, hSc⟩ := hch1 hECq hECc
        simp only [heqIL]
        rw [if_neg Bool.false_ne_true]
        refine ⟨?_, hSq, hSc⟩
        simp only [endQ]
        rw [if_neg hl]
        simp [shallowEndB, hSq]
    constructor
    · rintro p c ⟨str, sit, sidx, sbi, sei, spb, ssub⟩ hnil hPB
      obtain ⟨hPBq, hPBc⟩ : pastBeginQ d ssub = true ∧ PBChain d ssub := hPB
      have hnil' : FFL d p.1 p.2 c.1 = [] := by
        rw [← FF_eq_FFL]; exact hnil
      rw [setPointer_node]
      dsimp only
      simp only [toBeginR]
      by_cases hl : numKeysT (d + 1) c = 0
      · rw [if_pos hl]
        refine ⟨?_, hPBq, hPBc⟩
        simp [pastBeginQ, hl]
      · rw [if_neg hl]
        obtain ⟨S, heqIL, hch1, hch2⟩ :=
          (initLimits_spec d p.2 p.1 c
            (fun c su => toBeginR d p.2 (setPointer d c su))
            (fun c su => toEndR d p.2 (setPointer d c su))
            (ih1 p.2) (ih2 p.2) (ih3 p.2) (ih4 p.2) (ih5 p.2)
            ⟨some c, sit, sidx, sbi, sei, spb, ssub⟩).2 hnil'
        dsimp only at heqIL
        obtain ⟨hSq, hSc⟩ := hch2 hPBq hPBc
        simp only [heqIL]
        rw [if_neg Bool.false_ne_true]
        refine ⟨?_, hSq, hSc⟩
        simp only [pastBeginQ]
        rw [if_neg hl]
        simp [hSq]
    · rintro p c ⟨str, sit, sidx, sbi, sei, spb, ssub⟩
      rw [setPointer_node]
      dsimp only
      simp only [toEndR]
      by_cases hl : numKeysT (d + 1) c = 0
      · rw [if_pos hl]
        simp only [numKeysT] at hl
        have : FF (d + 1) p c = [] := by
          rw [FF_eq_FFL, List.length_eq_zero.mp hl]
          rfl
        simp [this]
      · rw [if_neg hl]
        by_cases hFF : FF (d + 1) p c = []
        · have hnil' : FFL d p.1 p.2 c.1 = [] := by
            rw [← FF_eq_FFL]; exact hFF
          obtain ⟨S, heqIL, hch1, hch2⟩ :=
            (initLimits_spec d p.2 p.1 c
              (fun c su => toBeginR d p.2 (setPointer d c su))
              (fun c su => toEndR d p.2 (setPointer d c su))
              (ih1 p.2) (ih2 p.2) (ih3 p.2) (ih4 p.2) (ih5 p.2)
              ⟨some c, sit, sidx, sbi, sei, spb, ssub⟩).2 hnil'
          dsimp only at heqIL
          simp only [heqIL]
          rw [if_neg Bool.false_ne_true]
          simp [hFF]
        · have hne' : FFL d p.1 p.2 c.1 ≠ [] := by
            rw [← FF_eq_FFL]; exact hFF
          obtain ⟨j₀, jL, S, hjle, hjLlt, hfj, hFFj, hdec, hdropjL, heqIL⟩ :=
            (initLimits_spec d p.2 p.1 c
              (fun c su => toBeginR d p.2 (setPointer d c su))
              (fun c su => toEndR d p.2 (setPointer d c su))
              (ih1 p.2) (ih2 p.2) (ih3 p.2) (ih4 p.2) (ih5 p.2)
              ⟨some c, sit, sidx, sbi, sei, spb, ssub⟩).1 hne'
          dsimp only at heqIL
          simp only [heqIL]
          rw [if_pos trivial]
          simp [hFF]

theorem repI_nil (d : Nat) (p : Preds d) (s : RSt d)
    (h : RepI d p s []) : endQ d s = true ∧ EndChain d s := by
  cases d with
  | zero =>
    obtain ⟨data, htr, hpb, hle, hL⟩ := h
    have hlen : data.length ≤ s.it := List.drop_eq_nil_iff.mp hL.symm
    refine ⟨?_, trivial⟩
    rw [endQ, htr]
    simpa using hlen
  | succ d =>
    obtain ⟨t, htr, hpb, hsync, hEle, hnc, hcase⟩ := h
    rcases hcase with ⟨Lsub, _, hLne, _, hLdec⟩ | ⟨hit, hq, hEc, _⟩
    · exact absurd (List.append_eq_nil.mp hLdec.symm).1 hLne
    · constructor
      · rw [endQ, htr]
        dsimp only
        by_cases hl : numKeysT (d + 1) t = 0
        · rw [if_pos hl]
        · rw [if_neg hl]
          simp [shallowEndB, hq, hsync.symm, hit]
      · exact ⟨hq, hEc⟩

theorem repI_ne_nil (d : Nat) (p : Preds d) (s : RSt d)
    (L : List (Int × Int)) (h : RepI d p s L) (hne : L ≠ []) :
    endQ d s = false := by
  cases d with
  | zero =>
    obtain ⟨data, htr, hpb, hle, hL⟩ := h
    have hlt : s.it < data.length := by
      rcases Nat.lt_or_ge s.it data.length with h' | h'
      · exact h'
      · exact absurd (hL ▸ List.drop_eq_nil_of_le h') hne
    rw [endQ, htr]
    simpa using by omega
  | succ d =>
    obtain ⟨t, htr, hpb, hsync, hEle, hnc, hcase⟩ := h
    rcases hcase with ⟨Lsub, hRep, hLne, hlt, hLdec⟩ | ⟨_, _, _, hL⟩
    · rw [endQ, htr]
      dsimp only
      have hl : ¬(numKeysT (d + 1) t = 0) := by
        simp only [numKeysT]
        omega
      rw [if_neg hl]
      have hsE : shallowEndB t s = false := by
        simp [shallowEndB]
        omega
      rw [hsE]
      rfl
    · exact absurd hL hne

theorem repI_step : ∀ (d : Nat) (p : Preds d) (s : RSt d) (x : Int × Int)
    (L : List (Int × Int)), RepI d p s (x :: L) →
    RepI d p (incR d p s) L := by
  intro d
  induction d with
  | zero =>
    intro p s x L h
    obtain ⟨data, htr, hpb, hle, hL⟩ := h
    have hlt : s.it < data.length := by
      rcases Nat.lt_or_ge s.it data.length with h' | h'
      · exact h'
      · rw [List.drop_eq_nil_of_le h'] at hL
        cases hL
    rw [List.drop_eq_getElem_cons hlt] at hL
    injection hL with hx hLtail
    rw [incR, hpb, if_neg Bool.false_ne_true]
    exact ⟨data, htr, rfl, (by show s.it + 1 ≤ data.length; omega), hLtail⟩
  | succ d ih =>
    rintro p ⟨tr, sit, sidx, sbi, sei, spb, ssub⟩ x L h
    obtain ⟨t, htr, hpb, hsync, hEle, hnc, hcase⟩ := h
    dsimp only at htr hpb hsync hEle hnc
    subst htr
    subst hpb
    subst hsync
    rcases hcase with ⟨Lsub, hRep, hLne, hlt, hLdec⟩ |
      ⟨hit, hq, hEc, hL0⟩
    · dsimp only at hRep hlt hLdec ⊢
      obtain ⟨y, Lsub', rfl⟩ := List.exists_cons_of_ne_nil hLne
      rw [List.cons_append] at hLdec
      injection hLdec with hx hLtail
      have hIs := ih p.2 ssub y Lsub' hRep
      by_cases hLsub' : Lsub' = []
      · subst hLsub'
        obtain ⟨hqI, hEcI⟩ := repI_nil d p.2 _ hIs
        simp only [incR]
        rw [hqI, if_pos rfl]
        by_cases hend : sit + 1 = sei
        · have hse : shallowEndB t (⟨some t, sit + 1, sit + 1, sbi, sei,
              false, incR d p.2 ssub⟩ : RSt (d + 1)) = true := by
            simp [shallowEndB]
            omega
          rw [hse, if_pos rfl]
          refine ⟨t, rfl, rfl, rfl, hEle, hnc, Or.inr ⟨hend, hqI, hEcI, ?_⟩⟩
          rw [hLtail, List.nil_append, hend]
          exact hnc
        · have hse : shallowEndB t (⟨some t, sit + 1, sit + 1, sbi, sei,
              false, incR d p.2 ssub⟩ : RSt (d + 1)) = false := by
            simp [shallowEndB]
            omega
          rw [hse, if_neg Bool.false_ne_true]
          obtain ⟨tb1, tb2, tb3, tb4, tb5⟩ := toBE_spec d
          have hNS := nextLoop_spec d p.2 p.1 t
            (fun c su => toBeginR d p.2 (setPointer d c su))
            (tb1 p.2) (tb2 p.2) (tb3 p.2) (tb4 p.2) sei
            ⟨some t, sit + 1, sit + 1, sbi, sei, false, incR d p.2 ssub⟩
            (by dsimp only; omega) rfl (by dsimp only; omega)
            (by dsimp only; exact hEle) (by dsimp only; exact hnc)
          dsimp only at hNS
          by_cases hrest : FFL d p.1 p.2 (t.1.drop (sit + 1)) = []
          · obtain ⟨S, heq, hch1, _⟩ := hNS.2 hrest
            rw [heq]
            dsimp only
            obtain ⟨hSq, hSc⟩ := hch1 hqI hEcI
            refine ⟨t, rfl, rfl, rfl, hEle, hnc,
              Or.inr ⟨rfl, hSq, hSc, ?_⟩⟩
            rw [hLtail, List.nil_append]
            exact hrest
          · obtain ⟨j, R, hj1, hj2, heq, hfj, hFFj, hRepR, hdecj⟩ :=
              hNS.1 hrest
            rw [heq]
            dsimp only
            refine ⟨t, rfl, rfl, rfl, hEle, hnc,
              Or.inl ⟨FF d p.2 ((t.1.getD j (0, emptyCT d)).2), hRepR,
                hFFj, hj2, ?_⟩⟩
            rw [hLtail, List.nil_append, hdecj]
      · have hqI := repI_ne_nil d p.2 _ Lsub' hIs hLsub'
        simp only [incR]
        rw [hqI, if_neg Bool.false_ne_true]
        exact ⟨t, rfl, rfl, rfl, hEle, hnc,
          Or.inl ⟨Lsub', hIs, hLsub', hlt, by rw [hLtail]⟩⟩
    · cases hL0.symm.trans rfl

theorem repI_rsteps (d : Nat) (p : Preds d) :
    ∀ (L : List (Int × Int)) (s : RSt d), RepI d p s L →
    RSteps d p s L.length := by
  intro L
  induction L with
  | nil =>
    intro s h
    exact RSteps.done s (repI_nil d p s h).1
  | cons x L ih =>
    intro s h
    exact RSteps.step s L.length
      (repI_ne_nil d p s _ h (by simp)) (ih _ (repI_step d p s x L h))

theorem countLoop_val (d : Nat) (q : Preds d) (f : Int → Bool)
    (t : CT (d + 1)) (cnt : CT d → RSt d → RSt d × Nat)
    (hcnt : ∀ c su, (cnt c su).2 = (FF d q c).length) :
    ∀ (n : Nat) (s : RSt (d + 1)) (acc : Nat), t.1.length - s.it ≤ n →
    s.it = s.itIdx → s.endIdx = t.1.length →
    (countLoop d cnt f t s acc).2 =
      acc + (FFL d f q (t.1.drop s.it)).length := by
  intro n
  induction n with
  | zero =>
    intro s acc hn hsync hend
    have hge : t.1.length ≤ s.it := by omega
    rw [countLoop]
    rw [if_pos (by simp [shallowEndB]; omega)]
    rw [List.drop_eq_nil_of_le hge]
    rfl
  | succ n ih =>
    intro s acc hn hsync hend
    rw [countLoop]
    by_cases hse : shallowEndB t s = true
    · rw [if_pos hse]
      simp only [shallowEndB, Bool.or_eq_true, decide_eq_true_eq,
        beq_iff_eq] at hse
      have hge : t.1.length ≤ s.it := by omega
      rw [List.drop_eq_nil_of_le hge]
      rfl
    · rw [if_neg hse]
      simp only [shallowEndB, Bool.or_eq_true, decide_eq_true_eq,
        beq_iff_eq, not_or] at hse
      have hlt : s.it < t.1.length := by omega
      have hsplit := FFL_drop_succ d f q t.1 s.it hlt
      dsimp only
      split
      · rename_i hf
        have hih := ih
          { s with it := s.it + 1, itIdx := s.itIdx + 1, sub := (cnt (t.1.getD s.it (0, emptyCT d)).2 s.sub).1 }
          (acc + (cnt (t.1.getD s.it (0, emptyCT d)).2 s.sub).2)
          (by dsimp only; omega) (by dsimp only; omega)
          (by dsimp only; exact hend)
        rw [hih]
        rw [hsplit, if_pos hf, hcnt]
        dsimp only
        simp only [List.length_append]
        omega
      · rename_i hf
        have hih := ih
          { s with it := s.it + 1, itIdx := s.itIdx + 1 } acc
          (by dsimp only; omega) (by dsimp only; omega)
          (by dsimp only; exact hend)
        rw [hih]
        rw [hsplit, if_neg hf]
        simp only [List.nil_append]

theorem countR_val : ∀ (d : Nat) (p : Preds d) (su : RSt d) (c : CT d),
    (countR d p (setPointer d c su)).2 = (FF d p c).length := by
  intro d
  induction d with
  | zero =>
    rintro p ⟨str, sit, spb⟩ c
    rfl
  | succ d ih =>
    rintro p ⟨tr, sit, sidx, sbi, sei, spb, ssub⟩ c
    rw [setPointer_node]
    dsimp only
    rw [countR]
    simp only [numKeysT]
    have hv := countLoop_val d p.2 p.1 c
      (fun c' su' => countR d p.2 (setPointer d c' su'))
      (fun c' su' => ih p.2 su' c') c.1.length
      ⟨some c, 0, 0, 0, c.1.length, spb, ssub⟩ 0
      (by dsimp only; omega) rfl rfl
    dsimp only at hv
    rw [hv, List.drop_zero, FF_eq_FFL]
    simp

/-- C2: for every tree and every choice of per-level predicates, the
range iterator's `count()` equals the number of times `operator++` can
be applied from `to_begin()` until `end()` becomes true (the step count
from a given start state is unique). -/
theorem range_count_iterate_equiv (d : Nat) (p : Preds d) (t : CT d) :
    RSteps d p (toBeginR d p (setPointer d t (freshR d))).1
      ((countR d p (setPointer d t (freshR d))).2) ∧
    (∀ n m, RSteps d p (toBeginR d p (setPointer d t (freshR d))).1 n →
      RSteps d p (toBeginR d p (setPointer d t (freshR d))).1 m →
      n = m) := by
  constructor
  · rw [countR_val d p (freshR d) t]
    by_cases hFF : FF d p t = []
    · have h3 := (toBE_spec d).2.2.1 p t (freshR d) hFF (endChain_fresh d)
      rw [hFF]
      exact RSteps.done _ h3.1
    · exact repI_rsteps d p (FF d p t) _ ((toBE_spec d).1 p t (freshR d) hFF).2
  · intro n m h1 h2
    exact rsteps_unique d p _ n m h1 h2

/-- C3: whenever the predicates select nothing in the tree (in
particular on an empty tree), `to_begin()` on a freshly constructed
range iterator returns false and leaves the iterator with
`past_begin()` and `end()` both true; likewise the full iterator's
`to_begin()` on an empty node reports `past_begin()` and `end()` both
true.  Totality of the Lean functions renders termination of the
scans. -/
theorem range_dead_end_to_begin :
    (∀ (d : Nat) (p : Preds d) (t : CT d), FF d p t = [] →
      ((toBeginR d p (setPointer d t (freshR d))).2 = false ∧
       pastBeginQ d (toBeginR d p (setPointer d t (freshR d))).1 = true ∧
       endQ d (toBeginR d p (setPointer d t (freshR d))).1 = true)) ∧
    (∀ (d : Nat) (t : CT d), sizeT d t = 0 →
      itPastBegin d (toBeginIt d t) = true ∧
      itEnd d (toBeginIt d t) = true) := by
  constructor
  · intro d p t hFF
    exact ⟨(toBE_spec d).2.1 p t (freshR d) hFF,
      ((toBE_spec d).2.2.2.1 p t (freshR d) hFF (pbChain_fresh d)).1,
      ((toBE_spec d).2.2.1 p t (freshR d) hFF (endChain_fresh d)).1⟩
  · intro d t hsz
    cases d with
    | zero =>
      have hl : t.length = 0 := hsz
      constructor <;> simp [toBeginIt, hl, itPastBegin, itEnd]
    | succ d =>
      constructor <;> simp [toBeginIt, hsz, itPastBegin, itEnd]

def deadPreds : Preds 2 := (fun k => k == 1, (fun k => k == 3, ()))

def deadTree : CT 2 :=
  ([(1, ([(4, [(10, 1)])], 1)), (2, ([(3, [(20, 1)])], 1))], 2)

theorem range_dead_end_to_begin_witness :
    FF 2 deadPreds deadTree = [] ∧
    ((toBeginR 2 deadPreds (setPointer 2 deadTree (freshR 2))).2 = false ∧
     pastBeginQ 2
       (toBeginR 2 deadPreds (setPointer 2 deadTree (freshR 2))).1 = true ∧
     endQ 2
       (toBeginR 2 deadPreds (setPointer 2 deadTree (freshR 2))).1 = true) ∧
    sizeT 1 (emptyCT 1) = 0 ∧
    (itPastBegin 1 (toBeginIt 1 (emptyCT 1)) = true ∧
     itEnd 1 (toBeginIt 1 (emptyCT 1)) = true) :=
  ⟨rfl, range_dead_end_to_begin.1 2 deadPreds deadTree rfl,
   rfl, range_dead_end_to_begin.2 1 (emptyCT 1) rfl⟩
